import Mathlib

/-!
Keyframe animation sequencer (`Graphics/Animation.cpp`)

A shallow embedding of `jrc::Frame` and `jrc::Animation`.

* Unsigned machine integers (`std::uint8_t`, `std::uint16_t`) are natural numbers; every
  conversion and subtraction that can wrap is written with an explicit `% 2^w`.
* `std::int16_t` values are integers, wrapped by `toInt16` where the source converts.
* `float` values (opacity, scale, interpolation threshold) are exact rationals; a float
  division whose divisor is zero has no rational value and is `none`.
* Indexing `frames[i]` outside the vector is undefined behaviour in the source; here it
  makes the enclosing operation return `none`.
* The drawable parts of a frame (`texture`, `bounds`, `head`) are opaque handles that
  no timing operation reads; they are not part of the model.
-/

namespace jrc

/-! ## Machine integers -/

/-- Conversion of a 64-bit record integer to `std::uint8_t`. -/
def toU8 (v : Int) : Nat := (v % 256).toNat

/-- Conversion of a 64-bit record integer to `std::uint16_t`. -/
def toU16 (v : Int) : Nat := (v % 65536).toNat

/-- Conversion of an integer to `std::int16_t` (two's complement wrap). -/
def toInt16 (v : Int) : Int := (v + 32768) % 65536 - 32768

/-- Subtraction of two `std::uint16_t` values, stored back into a `std::uint16_t`. -/
def u16sub (a b : Nat) : Nat := (a + 65536 - b % 65536) % 65536

/-- Subtraction `255 - a` stored into a `std::uint8_t`. -/
def u8sub (a b : Nat) : Nat := (a + 256 - b % 256) % 256

/-- Float division `static_cast<float>(a) / b`; no value (NaN or infinity) when `b` is 0. -/
def fdiv (a b : Nat) : Option ℚ := if b = 0 then none else some ((a : ℚ) / (b : ℚ))

/-! ## Asset record -/

/-- Modelled from the spec: the asset record accessor (`nl::node`, an external
collaborator, spec section 6). Only the keys read by `Frame::Frame` are kept. A key
holds `some v` when the child exists with integer type and value `v`, and `none` when
it is absent; typed extraction of an absent key yields the default 0. -/
structure Node where
  delay : Option Int
  a0 : Option Int
  a1 : Option Int
  z0 : Option Int
  z1 : Option Int
deriving DecidableEq, Repr

/-- Typed integer extraction with default 0 on absence (`nl::node::get_integer`). -/
def Node.getInteger (child : Option Int) : Int := child.getD 0

/-! ## Frame -/

/-- The timing and modifier fields of `jrc::Frame`: `delay : uint16`,
`opacities : pair<uint8, uint8>`, `scales : pair<uint16, uint16>`. -/
structure Frame where
  delay : Nat
  opacities : Nat × Nat
  scales : Nat × Nat
deriving DecidableEq, Repr

namespace Frame

/-- The constructor `Frame::Frame(nl::node src)`. -/
def ofNode (src : Node) : Frame :=
  let delay0 := toU16 (Node.getInteger src.delay)
  let delay := if delay0 = 0 then 100 else delay0
  let hasa0 := src.a0.isSome
  let hasa1 := src.a1.isSome
  let opacities : Nat × Nat :=
    if hasa0 && hasa1 then
      (toU8 (Node.getInteger src.a0), toU8 (Node.getInteger src.a1))
    else if hasa0 then
      let a0 := toU8 (Node.getInteger src.a0)
      (a0, u8sub 255 a0)
    else if hasa1 then
      let a1 := toU8 (Node.getInteger src.a1)
      (u8sub 255 a1, a1)
    else
      (255, 255)
  let hasz0 := src.z0.isSome
  let hasz1 := src.z1.isSome
  let scales : Nat × Nat :=
    if hasz0 && hasz1 then
      (toU16 (Node.getInteger src.z0), toU16 (Node.getInteger src.z1))
    else if hasz0 then
      (toU16 (Node.getInteger src.z0), 0)
    else if hasz1 then
      (100, toU16 (Node.getInteger src.z1))
    else
      (100, 100)
  { delay := delay, opacities := opacities, scales := scales }

/-- The default constructor `Frame::Frame()`. -/
def empty : Frame := { delay := 0, opacities := (0, 0), scales := (0, 0) }

/-- `Frame::start_opacity`. -/
def start_opacity (f : Frame) : Nat := f.opacities.1

/-- `Frame::start_scale`. -/
def start_scale (f : Frame) : Nat := f.scales.1

/-- `Frame::get_delay`. -/
def get_delay (f : Frame) : Nat := f.delay

/-- `Frame::opcstep`: the two `uint8` ends are promoted to `int` before subtracting. -/
def opcstep (f : Frame) (timestep : Nat) : ℚ :=
  if f.delay = 0 then 0
  else (timestep : ℚ) * (((f.opacities.2 : Int) - (f.opacities.1 : Int) : Int) : ℚ) / (f.delay : ℚ)

/-- `Frame::scalestep`: the two `uint16` ends are promoted to `int` before subtracting. -/
def scalestep (f : Frame) (timestep : Nat) : ℚ :=
  if f.delay = 0 then 0
  else (timestep : ℚ) * (((f.scales.2 : Int) - (f.scales.1 : Int) : Int) : ℚ) / (f.delay : ℚ)

/-- Every field holds a value of its C++ type. -/
def WellTyped (f : Frame) : Prop :=
  f.delay < 65536 ∧ f.opacities.1 < 256 ∧ f.opacities.2 < 256 ∧
    f.scales.1 < 65536 ∧ f.scales.2 < 65536

instance (f : Frame) : Decidable f.WellTyped := by
  unfold WellTyped; infer_instance

end Frame

/-! ## Interpolated quantity -/

/-- Modelled from the spec: the interpolated-quantity template behind `Nominal<T>` and
`Linear<T>`, whose header is not among the sources (spec sections 3 and 4.1). It holds
`committed`, the value as of the last completed tick, and `pending`, the value being
transitioned to. -/
structure Interpolated (α : Type) where
  committed : α
  pending : α
deriving DecidableEq, Repr

namespace Interpolated

/-- Modelled from the spec: `forceSet(v)` (`set` in the source) makes both fields `v`. -/
def set {α : Type} (v : α) : Interpolated α := { committed := v, pending := v }

/-- Modelled from the spec: `commit()` (`normalize` in the source) collapses `pending`
into `committed`. -/
def normalize {α : Type} (q : Interpolated α) : Interpolated α :=
  { committed := q.pending, pending := q.pending }

/-- Modelled from the spec: the plain read of the absent header (`frame.get()`,
`frame == x`, `frame + x` in the source). It is the value installed by the latest
`set` or `next`: the keyframe that `update` loads `delay` from is the one it reads on
the following call (spec 4.3 step 3e and the looping property of section 8). -/
def get {α : Type} (q : Interpolated α) : α := q.pending

/-- Modelled from the spec: `last()` of the absent header, the value as of the last
completed tick. -/
def last {α : Type} (q : Interpolated α) : α := q.committed

/-- Modelled from the spec: `blend(alpha)` (`get(alpha)` in the source) for a float
quantity, the linear interpolation between `committed` and `pending`. -/
def blend (q : Interpolated ℚ) (alpha : ℚ) : ℚ :=
  q.committed + (q.pending - q.committed) * alpha

/-- Modelled from the spec: `blend(alpha)` for the frame index, the linear interpolation
rounded to a discrete index. -/
def blendIndex (q : Interpolated Int) (alpha : ℚ) : Int :=
  round ((q.committed : ℚ) + ((q.pending : ℚ) - (q.committed : ℚ)) * alpha)

/-- Modelled from the spec: `retarget(newPending, thresholdAlpha)` (`next` in the
source) sets `pending`, and when the threshold is above 0 promotes `committed` to
the blend at the threshold. A threshold without value (NaN) compares false. -/
def next (q : Interpolated Int) (value : Int) (thrs : Option ℚ) : Interpolated Int :=
  let q1 : Interpolated Int := { committed := q.committed, pending := value }
  match thrs with
  | some t => if 0 < t then { committed := q1.blendIndex t, pending := value } else q1
  | none => q1

/-- Modelled from the spec: `operator +=` of the absent header steps the target by `v`;
the value reached by the previous tick becomes the committed one. -/
def add (q : Interpolated ℚ) (v : ℚ) : Interpolated ℚ :=
  { committed := q.pending, pending := q.pending + v }

end Interpolated

/-! ## Animation -/

/-- The state of `jrc::Animation`: `frame` is the frame-index quantity (`int16`),
`opacity` and `xyscale` are float quantities, `delay` is the `uint16` remaining hold
and `framestep` the playback direction. -/
structure Animation where
  frames : List Frame
  animated : Bool
  zigzag : Bool
  frame : Interpolated Int
  opacity : Interpolated ℚ
  xyscale : Interpolated ℚ
  delay : Nat
  framestep : Int
deriving DecidableEq, Repr

/-- Indexing `frames[i]` with an `int16` index: a negative index converts to a huge
`size_t`, so it is out of range like any index past the end. -/
def frameAt (frames : List Frame) (i : Int) : Option Frame :=
  if i < 0 then none else frames[i.toNat]?

/-- The outcome of the index computation of `update` (source lines 219 to 242). -/
structure Transition where
  nextframe : Int
  framestep : Int
  ended : Bool
deriving DecidableEq, Repr

namespace Animation

/-- `Animation::get_frame`: `frames[frame.get()]`. -/
def get_frame (a : Animation) : Option Frame := frameAt a.frames a.frame.get

/-- `Animation::reset`. -/
def reset (a : Animation) : Option Animation :=
  match frameAt a.frames 0 with
  | none => none
  | some f0 =>
    some { a with
      frame := Interpolated.set 0
      opacity := Interpolated.set (f0.start_opacity : ℚ)
      xyscale := Interpolated.set (f0.start_scale : ℚ)
      delay := f0.get_delay
      framestep := 1 }

/-- The boundary block of `Animation::update` that picks the next frame, the new
direction and the `ended` flag. -/
def transition (a : Animation) : Transition :=
  let lastframe := toInt16 ((a.frames.length : Int) - 1)
  if a.zigzag = true ∧ lastframe > 0 then
    if a.framestep = 1 ∧ a.frame.get = lastframe then
      { nextframe := toInt16 (a.frame.get + -a.framestep), framestep := -a.framestep,
        ended := false }
    else if a.framestep = -1 ∧ a.frame.get = 0 then
      { nextframe := toInt16 (a.frame.get + -a.framestep), framestep := -a.framestep,
        ended := true }
    else
      { nextframe := toInt16 (a.frame.get + a.framestep), framestep := a.framestep,
        ended := false }
  else if a.frame.get = lastframe then
    { nextframe := 0, framestep := a.framestep, ended := true }
  else
    { nextframe := toInt16 (a.frame.get + 1), framestep := a.framestep, ended := false }

/-- `Animation::update(std::uint16_t timestep)`, returning the new state and `ended`. -/
def update (a : Animation) (timestep : Nat) : Option (Animation × Bool) :=
  match a.get_frame with
  | none => none
  | some framedata =>
    let opacity1 := a.opacity.add (framedata.opcstep timestep)
    let opacity2 : Interpolated ℚ :=
      if opacity1.last < 0 then Interpolated.set 0
      else if opacity1.last > 255 then Interpolated.set 255
      else opacity1
    let xyscale1 := a.xyscale.add (framedata.scalestep timestep)
    let opacity3 : Interpolated ℚ :=
      if xyscale1.last < 0 then Interpolated.set 0 else opacity2
    if timestep ≥ a.delay then
      let tr := a.transition
      let delta := u16sub timestep a.delay
      let threshold := fdiv delta timestep
      match frameAt a.frames tr.nextframe with
      | none => none
      | some nf =>
        let delay0 := nf.get_delay
        some ({ a with
                frame := a.frame.next tr.nextframe threshold
                framestep := tr.framestep
                delay := if delay0 ≥ delta then u16sub delay0 delta else delay0
                opacity := Interpolated.set (nf.start_opacity : ℚ)
                xyscale := Interpolated.set (nf.start_scale : ℚ) }, tr.ended)
    else
      some ({ a with
              opacity := opacity3
              xyscale := xyscale1
              frame := a.frame.normalize
              delay := u16sub a.delay timestep }, false)

/-- The remaining hold holds a `uint16` value and every frame is well typed. -/
def WellTyped (a : Animation) : Prop :=
  a.delay < 65536 ∧ ∀ f ∈ a.frames, f.WellTyped

/-- What both constructors establish before their closing `reset()`: at least one
frame, at most 32768 of them (frame ids are distinct non-negative `int16` values),
all well typed, and `animated` set to `frames.size() > 1`. -/
def Constructed (a : Animation) : Prop :=
  a.frames ≠ [] ∧ a.frames.length ≤ 32768 ∧ (∀ f ∈ a.frames, f.WellTyped) ∧
    a.animated = decide (1 < a.frames.length)

/-- The states reachable from construction by `reset` and `update` calls. -/
inductive Reachable : Animation → Prop
  | construct {a a1 : Animation} : a.Constructed → a.reset = some a1 → Reachable a1
  | reset {a a1 : Animation} : Reachable a → a.reset = some a1 → Reachable a1
  | update {a a1 : Animation} {t : Nat} {e : Bool} :
      Reachable a → t < 65536 → a.update t = some (a1, e) → Reachable a1

/-- The structural state invariant: at least one frame and at most 32768, the active
index inside the frame list, and a direction of +1 or -1. -/
def Valid (a : Animation) : Prop :=
  a.frames ≠ [] ∧ a.frames.length ≤ 32768 ∧ 0 ≤ a.frame.get ∧
    a.frame.get < (a.frames.length : Int) ∧ (a.framestep = 1 ∨ a.framestep = -1)

/-- The full state invariant: the structural part, well-typed fields, the `animated`
flag as the constructors set it, and a remaining hold no larger than the hold of the
active frame. -/
def Inv (a : Animation) : Prop :=
  a.Valid ∧ a.WellTyped ∧ a.animated = decide (1 < a.frames.length) ∧
    ∃ f, a.get_frame = some f ∧ a.delay ≤ f.get_delay

/-- The opacity and scale quantities follow the active frame: for some elapsed times
`ec <= el` with `el + delay` within the hold of the active frame, the pending values
are the start values stepped by `el` and the committed values the start values
stepped by `ec`. -/
def Tracks (a : Animation) : Prop :=
  ∃ (f : Frame) (el ec : Nat), a.get_frame = some f ∧ ec ≤ el ∧
    el + a.delay ≤ f.get_delay ∧
    a.opacity.pending = (f.start_opacity : ℚ) + f.opcstep el ∧
    a.opacity.committed = (f.start_opacity : ℚ) + f.opcstep ec ∧
    a.xyscale.pending = (f.start_scale : ℚ) + f.scalestep el ∧
    a.xyscale.committed = (f.start_scale : ℚ) + f.scalestep ec

/-- A frame of the given hold without opacity or scale hints. -/
def plainFrame (delay : Nat) : Frame :=
  { delay := delay, opacities := (255, 255), scales := (100, 100) }

/-- A freshly reset sequencer over the given frames. -/
def fresh (frames : List Frame) (zigzag : Bool) (delay : Nat) : Animation :=
  { frames := frames, animated := decide (1 < frames.length), zigzag := zigzag,
    frame := Interpolated.set 0, opacity := Interpolated.set 255,
    xyscale := Interpolated.set 100, delay := delay, framestep := 1 }

/-- A single-frame sequencer with a hold of 100 ms, as left by `reset`. -/
def exampleStatic : Animation := fresh [plainFrame 100] false 100

/-- A three-frame looping sequencer with holds of 100 ms, as left by `reset`. -/
def exampleLoop : Animation :=
  fresh [plainFrame 100, plainFrame 100, plainFrame 100] false 100

/-- A three-frame zigzag sequencer with holds of 100 ms, as left by `reset`. -/
def exampleZigzag : Animation :=
  fresh [plainFrame 100, plainFrame 100, plainFrame 100] true 100

/-- A three-frame looping sequencer with holds of 100, 200 and 50 ms, as left by
`reset`. -/
def exampleHolds : Animation :=
  fresh [plainFrame 100, plainFrame 200, plainFrame 50] false 100

/-- Runs `update` once per timestep of the list and records, after each call, the
active frame index and the returned `ended` flag. -/
def trace : Animation → List Nat → Option (List (Int × Bool))
  | _, [] => some []
  | a, t :: ts =>
    match a.update t with
    | none => none
    | some (a1, e) =>
      match trace a1 ts with
      | none => none
      | some rest => some ((a1.frame.get, e) :: rest)

/-- `Animation::get_delay(std::int16_t frame_id)`: the comparison converts `frame_id`
to `size_t`, so a negative id compares as larger than any size. -/
def get_delay (a : Animation) (frame_id : Int) : Option Nat :=
  if 0 ≤ frame_id ∧ frame_id < (a.frames.length : Int) then
    match frameAt a.frames frame_id with
    | none => none
    | some f => some f.get_delay
  else some 0

/-- The loop of `Animation::getdelayuntil` from loop counter `i` with the running
`uint16` sum `total`: it stops at `i >= frame_id` or at `i >= frames.size()`, and each
round adds `frames[frame_id].get_delay()`. -/
def getdelayuntilFrom (frames : List Frame) (frame_id : Int) (i total : Nat) : Option Nat :=
  if (i : Int) < frame_id then
    if _h : i ≥ frames.length then some total
    else
      match frameAt frames frame_id with
      | none => none
      | some f => getdelayuntilFrom frames frame_id (i + 1) ((total + f.get_delay) % 65536)
  else some total
termination_by frames.length - i

/-- `Animation::getdelayuntil(std::int16_t frame_id)`. -/
def getdelayuntil (a : Animation) (frame_id : Int) : Option Nat :=
  getdelayuntilFrom a.frames frame_id 0 0

/-- The cumulative hold duration up to index `k` in the words of the specification:
the sum, modulo 2^16, of the holds of frames `0 .. k - 1`. -/
def cumulativeHold (frames : List Frame) (k : Nat) : Nat :=
  ((frames.take k).map Frame.get_delay).sum % 65536

end Animation

/-- What `Animation::draw` hands to `Frame::draw`: the frame alone (the caller's
arguments unchanged), or the frame with the composed scale and opacity modifier
`DrawArgument(interscale, interscale, interopc)`. -/
inductive DrawCall where
  | plain (frame : Frame)
  | modified (frame : Frame) (xscale yscale opacity : ℚ)
deriving DecidableEq, Repr

/-- The frame a draw call renders. -/
def DrawCall.frame : DrawCall → Frame
  | DrawCall.plain f => f
  | DrawCall.modified f _ _ _ => f

namespace Animation

/-- `Animation::draw(args, alpha)`: the frame is `frames[frame.get(alpha)]`, the
modifier is used when the blended opacity over 255 or the blended scale over 100
differs from 1. -/
def draw (a : Animation) (alpha : ℚ) : Option DrawCall :=
  let interframe := toInt16 (a.frame.blendIndex alpha)
  let interopc := a.opacity.blend alpha / 255
  let interscale := a.xyscale.blend alpha / 100
  match frameAt a.frames interframe with
  | none => none
  | some f =>
    if interopc ≠ 1 ∨ interscale ≠ 1 then
      some (DrawCall.modified f interscale interscale interopc)
    else some (DrawCall.plain f)

end Animation

/-! ## Construction -/

/-- The record with none of the keys that `Frame::Frame` reads (an absent node). -/
def Node.absent : Node := ⟨none, none, none, none, none⟩

/-- Modelled from the spec: a child of an animation source record (`nl::node`, an
external collaborator, spec section 6): its name, whether its type is bitmap, and the
keys `Frame::Frame` reads from it. -/
structure SourceChild where
  name : String
  isBitmap : Bool
  data : Node
deriving DecidableEq, Repr

/-- Modelled from the spec: an animation source record (`nl::node`): whether the record
itself is a bitmap, the frame keys of the record itself, its children in iteration
order, and the value of `src["zigzag"].get_bool()`. -/
structure Source where
  isBitmap : Bool
  data : Node
  children : List SourceChild
  zigzag : Bool
deriving DecidableEq, Repr

/-- Keyed child lookup `src[name]`: the data of the first child of that name, or the
absent node. -/
def Source.child (src : Source) (name : String) : Node :=
  match src.children.find? (fun c => c.name == name) with
  | some c => c.data
  | none => Node.absent

/-- `std::set<std::int16_t>::insert` on the ascending list of the elements. -/
def insertId (fid : Int) : List Int → List Int
  | [] => [fid]
  | x :: xs =>
    if fid < x then fid :: x :: xs
    else if fid = x then x :: xs
    else x :: insertId fid xs

/-- An example of the name conversion: the decimal value of the name, -1 when the
name is not a number. -/
def exampleOrDefault (name : String) : Int := (name.toInt?).getD (-1)

/-- An example source record: two bitmap children named 1 and 0 and one container
child. -/
def exampleSource : Source :=
  { isBitmap := false, data := Node.absent,
    children := [⟨"1", true, ⟨some 120, none, none, none, none⟩⟩,
                 ⟨"0", true, Node.absent⟩,
                 ⟨"origin", false, Node.absent⟩],
    zigzag := true }

namespace Animation

/-- The first loop of `Animation::Animation(nl::node)`: the ids of the bitmap children
whose name converts to a non-negative `int16`. The conversion
`string_conversion::or_default<std::int16_t>(name, -1)` is declared outside the
sources and is the parameter `orDefault`. -/
def frameids (orDefault : String → Int) (children : List SourceChild) : List Int :=
  children.foldl
    (fun ids sub =>
      if sub.isBitmap then
        let fid := orDefault sub.name
        if fid ≥ 0 then insertId fid ids else ids
      else ids)
    []

/-- The frame list built by `Animation::Animation(nl::node)`. -/
def sourceFrames (orDefault : String → Int) (src : Source) : List Frame :=
  if src.isBitmap then [Frame.ofNode src.data]
  else
    let frames := (frameids orDefault src.children).map
      (fun fid => Frame.ofNode (src.child (toString fid)))
    if frames.isEmpty then [Frame.empty] else frames

/-- The object before the closing `reset()` of a constructor; the quantities, the
remaining hold and the direction are only assigned by `reset`. -/
def unreset (frames : List Frame) (animated zigzag : Bool) : Animation :=
  { frames := frames, animated := animated, zigzag := zigzag,
    frame := Interpolated.set 0, opacity := Interpolated.set 0,
    xyscale := Interpolated.set 0, delay := 0, framestep := 0 }

/-- The constructor `Animation::Animation(nl::node src)`. -/
def ofSource (orDefault : String → Int) (src : Source) : Option Animation :=
  let frames := sourceFrames orDefault src
  (unreset frames (decide (frames.length > 1)) src.zigzag).reset

/-- The default constructor `Animation::Animation()`. -/
def ofNothing : Option Animation :=
  (unreset [Frame.empty] false false).reset

/-- The state the default constructor leaves: one degenerate frame, remaining hold 0. -/
def exampleDegenerate : Animation :=
  { frames := [Frame.empty], animated := false, zigzag := false,
    frame := Interpolated.set 0, opacity := Interpolated.set 0,
    xyscale := Interpolated.set 0, delay := 0, framestep := 1 }

/-- A single-frame sequencer whose frame fades in from opacity 0 to 255 over 100 ms,
as left by `reset`. -/
def exampleFade : Animation :=
  { frames := [{ delay := 100, opacities := (0, 255), scales := (100, 100) }],
    animated := false, zigzag := false,
    frame := Interpolated.set 0, opacity := Interpolated.set 0,
    xyscale := Interpolated.set 100, delay := 100, framestep := 1 }

/-- The looping example after `update 100`: the frame quantity has been retargeted to
frame 1 with threshold 0, so its committed slot still holds 0. -/
def exampleRetargeted : Animation :=
  { exampleLoop with frame := { committed := 0, pending := 1 } }

/-- The looping example with its scale quantity forced below 0. -/
def exampleNegativeScale : Animation :=
  { exampleLoop with xyscale := Interpolated.set (-1) }

end Animation

/-! ## Runs of updates -/

namespace Animation

/-- Runs `update` once per timestep of the list and returns the final state with the
sum of the holds of the frames left on the way; a frame is left by every update with
`timestep >= delay`. -/
def runLeft : Animation → List Nat → Option (Animation × Nat)
  | a, [] => some (a, 0)
  | a, t :: ts =>
    match a.get_frame with
    | none => none
    | some f =>
      match a.update t with
      | none => none
      | some (a1, _) =>
        match runLeft a1 ts with
        | none => none
        | some (a2, left) => some (a2, (if a.delay ≤ t then f.get_delay else 0) + left)

/-- Every boundary-crossing update of the run has an overshoot no larger than the hold
of the frame it enters. -/
def NoSkip : Animation → List Nat → Prop
  | _, [] => True
  | a, t :: ts =>
    match a.update t with
    | none => False
    | some (a1, _) =>
      (a.delay ≤ t → ∃ nf, a1.get_frame = some nf ∧ t - a.delay ≤ nf.get_delay) ∧
        NoSkip a1 ts

/-- Every update of the run crosses a frame boundary (`timestep >= delay`). -/
def AllBoundary : Animation → List Nat → Prop
  | _, [] => True
  | a, t :: ts =>
    a.delay ≤ t ∧
      match a.update t with
      | none => False
      | some (a1, _) => AllBoundary a1 ts

/-- The triangle wave of period `2 (n - 1)` in the words of the claim: with
`m = k mod 2 (n - 1)`, the value is `m` when `m <= n - 1` and `2 (n - 1) - m`
otherwise. -/
def triangle (n k : Nat) : Nat :=
  if k % (2 * (n - 1)) ≤ n - 1 then k % (2 * (n - 1)) else 2 * (n - 1) - k % (2 * (n - 1))

/-- The direction of a zigzag run after `k` boundary crossings from `reset`: forward
at the start and on the rising half of the wave, backward on the falling half and on
arrival at frame 0. -/
def zigzagDirection (n k : Nat) : Int :=
  if k = 0 then 1
  else if 1 ≤ k % (2 * (n - 1)) ∧ k % (2 * (n - 1)) ≤ n - 1 then 1
  else -1

end Animation

/-! ## Background types -/

/-- `Background::Type`, the unscoped enumeration of `MapBackgrounds.h`. -/
inductive BackgroundType where
  | NORMAL
  | HTILED
  | VTILED
  | TILED
  | HMOVEA
  | VMOVEA
  | HMOVEB
  | VMOVEB
deriving DecidableEq, Repr

namespace BackgroundType

/-- The numeric value of an enumerator. -/
def value : BackgroundType → Int
  | NORMAL => 0
  | HTILED => 1
  | VTILED => 2
  | TILED => 3
  | HMOVEA => 4
  | VMOVEA => 5
  | HMOVEB => 6
  | VMOVEB => 7

/-- `static_cast<Type>(id)`: the enumerator whose value is `id`; a value that no
enumerator has gives `none`. -/
def ofValue (id : Int) : Option BackgroundType :=
  if id = 0 then some NORMAL
  else if id = 1 then some HTILED
  else if id = 2 then some VTILED
  else if id = 3 then some TILED
  else if id = 4 then some HMOVEA
  else if id = 5 then some VMOVEA
  else if id = 6 then some HMOVEB
  else if id = 7 then some VMOVEB
  else none

end BackgroundType

/-- `Background::typebyid(std::int32_t id)`: the returned type and the line printed to
the console, if any. -/
def typebyid (id : Int) : Option BackgroundType × Option String :=
  if id ≥ BackgroundType.NORMAL.value ∧ id ≤ BackgroundType.VMOVEB.value then
    (BackgroundType.ofValue id, none)
  else
    (some BackgroundType.NORMAL, some ("Unhandled background type: " ++ toString id))

/-! ## Arithmetic helpers -/

theorem toU16_natCast (d : Nat) (h : d < 65536) : toU16 (d : Int) = d := by
  unfold toU16; omega

theorem toU8_natCast (d : Nat) (h : d < 256) : toU8 (d : Int) = d := by
  unfold toU8; omega

theorem u8sub_255 (a : Nat) (h : a ≤ 255) : u8sub 255 a = 255 - a := by
  unfold u8sub; omega

theorem u16sub_exact (a b : Nat) (hba : b ≤ a) (ha : a < 65536) : u16sub a b = a - b := by
  unfold u16sub; omega

theorem u16sub_le (a b : Nat) (hba : b ≤ a) : u16sub a b ≤ a - b := by
  unfold u16sub; omega

theorem toInt16_exact (v : Int) (hlo : -32768 ≤ v) (hhi : v < 32768) : toInt16 v = v := by
  unfold toInt16; omega

/-! ## Indexing and the interpolated index -/

theorem frameAt_of_range (frames : List Frame) (i : Int) (h0 : 0 ≤ i)
    (h1 : i < (frames.length : Int)) : ∃ f, frameAt frames i = some f := by
  have hlt : i.toNat < frames.length := by omega
  refine ⟨frames[i.toNat], ?_⟩
  unfold frameAt
  rw [if_neg (by omega)]
  exact List.getElem?_eq_getElem hlt

theorem frameAt_range (frames : List Frame) (i : Int) (f : Frame)
    (h : frameAt frames i = some f) : 0 ≤ i ∧ i < (frames.length : Int) := by
  unfold frameAt at h
  split at h
  · exact absurd h (by simp)
  · have hlt : i.toNat < frames.length := (List.getElem?_eq_some_iff.mp h).1
    omega

theorem frameAt_mem (frames : List Frame) (i : Int) (f : Frame)
    (h : frameAt frames i = some f) : f ∈ frames := by
  unfold frameAt at h
  split at h
  · exact absurd h (by simp)
  · obtain ⟨hlt, he⟩ := List.getElem?_eq_some_iff.mp h
    exact he ▸ List.getElem_mem hlt

theorem Interpolated.get_next (q : Interpolated Int) (v : Int) (thrs : Option ℚ) :
    (q.next v thrs).get = v := by
  unfold Interpolated.next Interpolated.get
  cases thrs with
  | none => rfl
  | some t => dsimp only; split <;> rfl

theorem Interpolated.get_normalize {α : Type} (q : Interpolated α) :
    q.normalize.get = q.get := rfl

theorem Interpolated.get_set {α : Type} (v : α) : (Interpolated.set v).get = v := rfl

/-! ## One call of `update` -/

/-- The branch of `update` taken when `timestep < delay`. -/
theorem Animation.update_hold (a : Animation) (t : Nat) (f : Frame)
    (hf : a.get_frame = some f) (ht : t < a.delay) :
    ∃ a1, a.update t = some (a1, false) ∧ a1.frame = a.frame.normalize ∧
      a1.delay = u16sub a.delay t ∧ a1.framestep = a.framestep ∧
      a1.frames = a.frames ∧ a1.zigzag = a.zigzag ∧ a1.animated = a.animated := by
  unfold Animation.update
  rw [hf]
  simp only [ge_iff_le, if_neg (Nat.not_le.mpr ht)]
  exact ⟨_, rfl, rfl, rfl, rfl, rfl, rfl, rfl⟩

/-- The branch of `update` taken when `timestep >= delay`, given that the next frame
is inside the frame list. -/
theorem Animation.update_boundary (a : Animation) (t : Nat) (f nf : Frame)
    (hf : a.get_frame = some f) (hb : a.delay ≤ t)
    (hn : frameAt a.frames a.transition.nextframe = some nf) :
    ∃ a1, a.update t = some (a1, a.transition.ended) ∧
      a1.frame = a.frame.next a.transition.nextframe (fdiv (u16sub t a.delay) t) ∧
      a1.delay = (if nf.get_delay ≥ u16sub t a.delay
                  then u16sub nf.get_delay (u16sub t a.delay) else nf.get_delay) ∧
      a1.framestep = a.transition.framestep ∧
      a1.opacity = Interpolated.set (nf.start_opacity : ℚ) ∧
      a1.xyscale = Interpolated.set (nf.start_scale : ℚ) ∧
      a1.frames = a.frames ∧ a1.zigzag = a.zigzag ∧ a1.animated = a.animated := by
  unfold Animation.update
  rw [hf]
  simp only [ge_iff_le, if_pos hb, hn]
  exact ⟨_, rfl, rfl, rfl, rfl, rfl, rfl, rfl, rfl, rfl⟩

/-- Under the structural invariant the index computation of `update` stays inside the
frame list and keeps the direction at +1 or -1. -/
theorem Animation.transition_range (a : Animation) (hv : a.Valid) :
    0 ≤ a.transition.nextframe ∧ a.transition.nextframe < (a.frames.length : Int) ∧
      (a.transition.framestep = 1 ∨ a.transition.framestep = -1) := by
  obtain ⟨hne, hlen, h0, h1, hs⟩ := hv
  have hpos : 0 < a.frames.length := List.length_pos.mpr hne
  have hl : toInt16 ((a.frames.length : Int) - 1) = (a.frames.length : Int) - 1 :=
    toInt16_exact _ (by omega) (by omega)
  unfold Animation.transition
  simp only [hl]
  split_ifs with c1 c2 c3 c4
  · obtain ⟨hs1, hg⟩ := c2
    have : toInt16 (a.frame.get + -a.framestep) = a.frame.get + -a.framestep :=
      toInt16_exact _ (by omega) (by omega)
    simp only [this]
    omega
  · obtain ⟨hs1, hg⟩ := c3
    have : toInt16 (a.frame.get + -a.framestep) = a.frame.get + -a.framestep :=
      toInt16_exact _ (by omega) (by omega)
    simp only [this]
    omega
  · have : toInt16 (a.frame.get + a.framestep) = a.frame.get + a.framestep :=
      toInt16_exact _ (by omega) (by omega)
    simp only [this]
    rcases hs with hs | hs
    · have : a.frame.get ≠ (a.frames.length : Int) - 1 := fun h => c2 ⟨hs, h⟩
      omega
    · have : a.frame.get ≠ 0 := fun h => c3 ⟨hs, h⟩
      omega
  · simp only
    omega
  · have : toInt16 (a.frame.get + 1) = a.frame.get + 1 :=
      toInt16_exact _ (by omega) (by omega)
    simp only [this]
    omega

/-- In a structurally valid state `update` returns for every timestep, and the result
is the one of the branch selected by comparing the timestep with `delay`. -/
theorem Animation.update_cases (a : Animation) (t : Nat) (hv : a.Valid) :
    ∃ f nf a1 e, a.get_frame = some f ∧
      frameAt a.frames a.transition.nextframe = some nf ∧
      a.update t = some (a1, e) ∧
      a1.frames = a.frames ∧ a1.zigzag = a.zigzag ∧ a1.animated = a.animated ∧
      ((t < a.delay ∧ e = false ∧ a1.frame = a.frame.normalize ∧
          a1.delay = u16sub a.delay t ∧ a1.framestep = a.framestep) ∨
       (a.delay ≤ t ∧ e = a.transition.ended ∧
          a1.frame = a.frame.next a.transition.nextframe (fdiv (u16sub t a.delay) t) ∧
          a1.delay = (if nf.get_delay ≥ u16sub t a.delay
                      then u16sub nf.get_delay (u16sub t a.delay) else nf.get_delay) ∧
          a1.framestep = a.transition.framestep)) := by
  obtain ⟨f, hf⟩ := frameAt_of_range a.frames a.frame.get hv.2.2.1 hv.2.2.2.1
  obtain ⟨hn0, hn1, _⟩ := a.transition_range hv
  obtain ⟨nf, hn⟩ := frameAt_of_range a.frames a.transition.nextframe hn0 hn1
  rcases Nat.lt_or_ge t a.delay with ht | hb
  · obtain ⟨a1, hu, h1, h2, h3, h4, h5, h6⟩ := a.update_hold t f hf ht
    exact ⟨f, nf, a1, false, hf, hn, hu, h4, h5, h6, Or.inl ⟨ht, rfl, h1, h2, h3⟩⟩
  · obtain ⟨a1, hu, h1, h2, h3, _, _, h4, h5, h6⟩ := a.update_boundary t f nf hf hb hn
    exact ⟨f, nf, a1, _, hf, hn, hu, h4, h5, h6, Or.inr ⟨hb, rfl, h1, h2, h3⟩⟩

/-! ## Reachable states -/

theorem Animation.reset_inv (a a1 : Animation) (hne : a.frames ≠ [])
    (hlen : a.frames.length ≤ 32768) (hty : ∀ f ∈ a.frames, f.WellTyped)
    (han : a.animated = decide (1 < a.frames.length)) (hr : a.reset = some a1) :
    a1.Inv := by
  have hpos : 0 < a.frames.length := List.length_pos.mpr hne
  obtain ⟨f0, hf0⟩ := frameAt_of_range a.frames 0 (le_refl 0) (by omega)
  unfold Animation.reset at hr
  rw [hf0] at hr
  simp only [Option.some.injEq] at hr
  subst hr
  have hty0 : f0.WellTyped := hty f0 (frameAt_mem _ _ _ hf0)
  refine ⟨⟨hne, hlen, le_refl 0, ?_, Or.inl rfl⟩, ⟨hty0.1, hty⟩, han, f0, hf0, le_refl _⟩
  show (0 : Int) < (a.frames.length : Int)
  omega

theorem Animation.update_inv (a a1 : Animation) (t : Nat) (e : Bool) (hi : a.Inv)
    (hu : a.update t = some (a1, e)) : a1.Inv := by
  obtain ⟨hv, hw, han, f, hf, hd⟩ := hi
  obtain ⟨f', nf, a2, e2, hf', hn, hu2, hfr, hz, ha, hc⟩ := a.update_cases t hv
  rw [hu2] at hu
  simp only [Option.some.injEq, Prod.mk.injEq] at hu
  obtain ⟨rfl, rfl⟩ := hu
  rw [hf] at hf'
  simp only [Option.some.injEq] at hf'
  subst hf'
  obtain ⟨hne, hlen, h0, h1, hs⟩ := hv
  obtain ⟨hn0, hn1, hns⟩ := a.transition_range ⟨hne, hlen, h0, h1, hs⟩
  rcases hc with ⟨ht, _, hfm, hdl, hst⟩ | ⟨hb, _, hfm, hdl, hst⟩
  · have hg : a2.frame.get = a.frame.get := by rw [hfm]; rfl
    have hle : a2.delay ≤ a.delay - t := by
      rw [hdl]; exact u16sub_le _ _ (Nat.le_of_lt ht)
    refine ⟨⟨?_, ?_, ?_, ?_, ?_⟩, ⟨?_, ?_⟩, ?_, f, ?_, ?_⟩
    · rw [hfr]; exact hne
    · rw [hfr]; exact hlen
    · rw [hg]; exact h0
    · rw [hg, hfr]; exact h1
    · rw [hst]; exact hs
    · have := hw.1; omega
    · rw [hfr]; exact hw.2
    · rw [ha, hfr]; exact han
    · unfold Animation.get_frame; rw [hfr, hg]; exact hf
    · omega
  · have hg : a2.frame.get = a.transition.nextframe := by
      rw [hfm]; exact Interpolated.get_next _ _ _
    have hnty : nf.WellTyped := hw.2 nf (frameAt_mem _ _ _ hn)
    have hnd : nf.get_delay < 65536 := hnty.1
    have hle : a2.delay ≤ nf.get_delay := by
      rw [hdl]
      split
      · rename_i hge
        have := u16sub_le nf.get_delay (u16sub t a.delay) hge
        omega
      · exact le_refl _
    refine ⟨⟨?_, ?_, ?_, ?_, ?_⟩, ⟨?_, ?_⟩, ?_, nf, ?_, hle⟩
    · rw [hfr]; exact hne
    · rw [hfr]; exact hlen
    · rw [hg]; exact hn0
    · rw [hg, hfr]; exact hn1
    · rw [hst]; exact hns
    · omega
    · rw [hfr]; exact hw.2
    · rw [ha, hfr]; exact han
    · unfold Animation.get_frame; rw [hfr, hg]; exact hn

theorem Animation.reachable_inv (a : Animation) (h : a.Reachable) : a.Inv := by
  induction h with
  | construct hc hr => exact Animation.reset_inv _ _ hc.1 hc.2.1 hc.2.2.1 hc.2.2.2 hr
  | reset _ hr ih =>
    exact Animation.reset_inv _ _ ih.1.1 ih.1.2.1 ih.2.1.2 ih.2.2.1 hr
  | update _ _ hu ih => exact Animation.update_inv _ _ _ _ ih hu

theorem Animation.exampleStatic_reachable : Animation.exampleStatic.Reachable := by
  refine @Animation.Reachable.construct Animation.exampleStatic _ ?_ ?_
  · refine ⟨by decide, by decide, ?_, by decide⟩
    intro f hf
    simp only [Animation.exampleStatic, Animation.fresh, List.mem_singleton] at hf
    subst hf
    decide
  · simp [Animation.reset, frameAt, Animation.exampleStatic, Animation.fresh,
      Animation.plainFrame, Frame.start_opacity, Frame.start_scale, Frame.get_delay]

theorem Animation.exampleLoop_reachable : Animation.exampleLoop.Reachable := by
  refine @Animation.Reachable.construct Animation.exampleLoop _ ?_ ?_
  · refine ⟨by decide, by decide, ?_, by decide⟩
    intro f hf
    simp only [Animation.exampleLoop, Animation.fresh, List.mem_cons, List.mem_singleton,
      List.not_mem_nil, or_false, or_self] at hf
    subst hf
    decide
  · simp [Animation.reset, frameAt, Animation.exampleLoop, Animation.fresh,
      Animation.plainFrame, Frame.start_opacity, Frame.start_scale, Frame.get_delay]

/-! ## Static sequencers -/

/-- C1, refuted as stated: the reset single-frame sequencer with hold 100 is reachable
and not animated, yet `update 100` returns `ended = true`, and `update 30` changes the
state (the remaining hold drops to 70). -/
theorem static_noop_refuted :
    Animation.exampleStatic.Reachable ∧ Animation.exampleStatic.animated = false ∧
    Animation.exampleStatic.update 100 = some (Animation.exampleStatic, true) ∧
    (Animation.exampleStatic.update 30).map (fun r => (r.1.delay, r.2)) = some (70, false) := by
  refine ⟨Animation.exampleStatic_reachable, rfl, ?_, ?_⟩
  · simp [Animation.update, Animation.get_frame, frameAt, Animation.exampleStatic,
      Animation.fresh, Animation.plainFrame, Animation.transition, Interpolated.get,
      Interpolated.set, Interpolated.next, Interpolated.add, Interpolated.last,
      Frame.get_delay, Frame.start_opacity, Frame.start_scale, fdiv, u16sub, toInt16]
  · simp [Animation.update, Animation.get_frame, frameAt, Animation.exampleStatic,
      Animation.fresh, Animation.plainFrame, Interpolated.get, Interpolated.set, u16sub]

/-- C1, amended: in every reachable state of a sequencer that is not animated there is
exactly one frame and the active index is 0; `update` always returns, keeps the active
index at 0 and the direction unchanged, returns `ended = true` exactly when the timestep
reaches the remaining hold, and below the remaining hold it subtracts the timestep. -/
theorem static_sequencer_update (a : Animation) (t : Nat) (hr : a.Reachable)
    (hs : a.animated = false) :
    a.frames.length = 1 ∧ a.frame.get = 0 ∧
    ∃ a1, a.update t = some (a1, decide (a.delay ≤ t)) ∧ a1.frame.get = 0 ∧
      a1.framestep = a.framestep ∧ a1.frames = a.frames ∧
      (t < a.delay → a1.delay = a.delay - t) := by
  obtain ⟨hv, hw, han, _⟩ := a.reachable_inv hr
  have hpos : 0 < a.frames.length := List.length_pos.mpr hv.1
  have hlen : a.frames.length = 1 := by
    rw [hs] at han
    have : ¬ (1 < a.frames.length) := of_decide_eq_false han.symm
    omega
  have hg : a.frame.get = 0 := by
    have h0 := hv.2.2.1
    have h1 := hv.2.2.2.1
    omega
  refine ⟨hlen, hg, ?_⟩
  obtain ⟨f, nf, a1, e, hf, hn, hu, hfr, _, _, hc⟩ := a.update_cases t hv
  have htr : a.transition = { nextframe := 0, framestep := a.framestep, ended := true } := by
    unfold Animation.transition
    simp [hlen, hg, toInt16]
  rcases hc with ⟨ht, he, hfm, hdl, hst⟩ | ⟨hb, he, hfm, hdl, hst⟩
  · refine ⟨a1, ?_, ?_, hst, hfr, ?_⟩
    · rw [hu, he]; simp [Nat.not_le.mpr ht]
    · rw [hfm]; exact hg
    · intro _; rw [hdl]; exact u16sub_exact _ _ (Nat.le_of_lt ht) hw.1
  · refine ⟨a1, ?_, ?_, ?_, hfr, ?_⟩
    · rw [hu, he, htr]; simp [hb]
    · rw [hfm, htr]; exact Interpolated.get_next _ _ _
    · rw [hst, htr]
    · intro ht; omega

theorem static_sequencer_update_witness :
    Animation.exampleStatic.frames.length = 1 ∧ Animation.exampleStatic.frame.get = 0 ∧
    ∃ a1, Animation.exampleStatic.update 130
        = some (a1, decide (Animation.exampleStatic.delay ≤ 130)) ∧
      a1.frame.get = 0 ∧ a1.framestep = Animation.exampleStatic.framestep ∧
      a1.frames = Animation.exampleStatic.frames ∧
      (130 < Animation.exampleStatic.delay → a1.delay = Animation.exampleStatic.delay - 130) :=
  static_sequencer_update Animation.exampleStatic 130 Animation.exampleStatic_reachable rfl

/-! ## Ticks inside a hold -/

theorem Animation.exampleRetargeted_reachable : Animation.exampleRetargeted.Reachable ∧
    Animation.exampleLoop.update 100 = some (Animation.exampleRetargeted, false) := by
  have hu : Animation.exampleLoop.update 100 = some (Animation.exampleRetargeted, false) := by
    simp [Animation.update, Animation.get_frame, frameAt, Animation.exampleLoop,
      Animation.exampleRetargeted, Animation.fresh, Animation.plainFrame,
      Animation.transition, Interpolated.get, Interpolated.set, Interpolated.next,
      Interpolated.add, Interpolated.last, Frame.get_delay, Frame.start_opacity,
      Frame.start_scale, fdiv, u16sub, toInt16]
  exact ⟨Animation.Reachable.update Animation.exampleLoop_reachable (by decide) hu, hu⟩

/-- C4, refuted as stated: the looping example after `update 100` is reachable with
committed frame index 0 and active index 1; `update 30` is below its remaining hold of
100 and changes the committed frame index from 0 to 1. -/
theorem hold_changes_committed_index :
    Animation.exampleRetargeted.Reachable ∧
    Animation.exampleLoop.update 100 = some (Animation.exampleRetargeted, false) ∧
    Animation.exampleRetargeted.frame.committed = 0 ∧
    Animation.exampleRetargeted.frame.get = 1 ∧
    30 < Animation.exampleRetargeted.delay ∧
    ∃ a1, Animation.exampleRetargeted.update 30 = some (a1, false) ∧
      a1.frame.committed = 1 ∧ a1.frame.get = 1 := by
  refine ⟨Animation.exampleRetargeted_reachable.1, Animation.exampleRetargeted_reachable.2,
    rfl, rfl, by decide, ?_⟩
  obtain ⟨a1, hu, hfm, _⟩ := Animation.update_hold Animation.exampleRetargeted 30
    (Animation.plainFrame 100) rfl (by decide)
  exact ⟨a1, hu, by rw [hfm]; rfl, by rw [hfm]; rfl⟩

/-- C4, amended: when the timestep is below the remaining hold, `update` returns
`ended = false`, keeps the active frame index (the one `frame.get()` reads) and the
direction, sets the committed slot of the frame quantity to that active index, and
leaves the remaining hold at its old value minus the timestep, without `uint16`
wrap-around. -/
theorem update_within_hold (a : Animation) (t : Nat) (f : Frame)
    (hf : a.get_frame = some f) (hd : a.delay < 65536) (ht : t < a.delay) :
    ∃ a1, a.update t = some (a1, false) ∧ a1.frame.get = a.frame.get ∧
      a1.frame.committed = a.frame.get ∧ a1.framestep = a.framestep ∧
      a1.delay = a.delay - t ∧ a1.delay + t = a.delay := by
  obtain ⟨a1, hu, hfm, hdl, hst, _, _, _⟩ := a.update_hold t f hf ht
  have hx : a1.delay = a.delay - t := by
    rw [hdl]; exact u16sub_exact _ _ (Nat.le_of_lt ht) hd
  refine ⟨a1, hu, ?_, ?_, hst, hx, ?_⟩
  · rw [hfm]; rfl
  · rw [hfm]; rfl
  · omega

theorem update_within_hold_witness :
    ∃ a1, Animation.exampleRetargeted.update 30 = some (a1, false) ∧
      a1.frame.get = Animation.exampleRetargeted.frame.get ∧
      a1.frame.committed = Animation.exampleRetargeted.frame.get ∧
      a1.framestep = Animation.exampleRetargeted.framestep ∧
      a1.delay = Animation.exampleRetargeted.delay - 30 ∧
      a1.delay + 30 = Animation.exampleRetargeted.delay :=
  update_within_hold Animation.exampleRetargeted 30 (Animation.plainFrame 100) rfl
    (by decide) (by decide)

/-! ## Boundary crossings -/

theorem Animation.exampleZigzag_valid : Animation.exampleZigzag.Valid :=
  ⟨by decide, by decide, by decide, by decide, Or.inl rfl⟩

theorem Animation.exampleLoop_valid : Animation.exampleLoop.Valid :=
  ⟨by decide, by decide, by decide, by decide, Or.inl rfl⟩

theorem Animation.exampleLoop_wellTyped : Animation.exampleLoop.WellTyped :=
  (Animation.reachable_inv _ Animation.exampleLoop_reachable).2.1

/-- C3: a boundary-crossing `update` of a zigzag sequencer with at least two frames:
at the last index going forward it turns the direction to -1, moves to index `n - 2`
and returns `ended = false`; at index 0 going backward it turns the direction to +1,
moves to index 1 and returns `ended = true`; otherwise it moves the index by the
direction, keeps the direction and returns `ended = false`. -/
theorem zigzag_update (a : Animation) (t : Nat) (hv : a.Valid) (hz : a.zigzag = true)
    (hn : 2 ≤ a.frames.length) (hb : a.delay ≤ t) :
    ∃ a1 e, a.update t = some (a1, e) ∧
      (a.frame.get = (a.frames.length : Int) - 1 ∧ a.framestep = 1 →
        a1.framestep = -1 ∧ a1.frame.get = (a.frames.length : Int) - 2 ∧ e = false) ∧
      (a.frame.get = 0 ∧ a.framestep = -1 →
        a1.framestep = 1 ∧ a1.frame.get = 1 ∧ e = true) ∧
      (¬ (a.frame.get = (a.frames.length : Int) - 1 ∧ a.framestep = 1) →
        ¬ (a.frame.get = 0 ∧ a.framestep = -1) →
        a1.framestep = a.framestep ∧ a1.frame.get = a.frame.get + a.framestep ∧
          e = false) := by
  obtain ⟨f, nf, a1, e, hf, hnf, hu, _, _, _, hc⟩ := a.update_cases t hv
  obtain ⟨hne, hlen, h0, h1, hs⟩ := hv
  have hl : toInt16 ((a.frames.length : Int) - 1) = (a.frames.length : Int) - 1 :=
    toInt16_exact _ (by omega) (by omega)
  rcases hc with ⟨ht, _, _, _, _⟩ | ⟨_, he, hfm, _, hst⟩
  · omega
  have hg : a1.frame.get = a.transition.nextframe := by
    rw [hfm]; exact Interpolated.get_next _ _ _
  have hzz : a.zigzag = true ∧ toInt16 ((a.frames.length : Int) - 1) > 0 :=
    ⟨hz, by rw [hl]; omega⟩
  refine ⟨a1, e, hu, ?_, ?_, ?_⟩
  · rintro ⟨hi, hd⟩
    have c : a.framestep = 1 ∧ a.frame.get = toInt16 ((a.frames.length : Int) - 1) :=
      ⟨hd, by rw [hl]; exact hi⟩
    have htr : a.transition =
        { nextframe := toInt16 (a.frame.get + -a.framestep),
          framestep := -a.framestep, ended := false } := by
      unfold Animation.transition
      rw [if_pos hzz, if_pos c]
    have hw : toInt16 (a.frame.get + -a.framestep) = a.frame.get + -a.framestep :=
      toInt16_exact _ (by omega) (by omega)
    rw [hst, hg, he, htr]
    simp only [hw]
    refine ⟨by omega, by omega, trivial⟩
  · rintro ⟨hi, hd⟩
    have c1 : ¬ (a.framestep = 1 ∧ a.frame.get = toInt16 ((a.frames.length : Int) - 1)) := by
      rintro ⟨h, _⟩; omega
    have c2 : a.framestep = -1 ∧ a.frame.get = 0 := ⟨hd, hi⟩
    have htr : a.transition =
        { nextframe := toInt16 (a.frame.get + -a.framestep),
          framestep := -a.framestep, ended := true } := by
      unfold Animation.transition
      rw [if_pos hzz, if_neg c1, if_pos c2]
    have hw : toInt16 (a.frame.get + -a.framestep) = a.frame.get + -a.framestep :=
      toInt16_exact _ (by omega) (by omega)
    rw [hst, hg, he, htr]
    simp only [hw]
    refine ⟨by omega, by omega, trivial⟩
  · intro n1 n2
    have c1 : ¬ (a.framestep = 1 ∧ a.frame.get = toInt16 ((a.frames.length : Int) - 1)) := by
      rintro ⟨h, h2⟩; rw [hl] at h2; exact n1 ⟨h2, h⟩
    have c2 : ¬ (a.framestep = -1 ∧ a.frame.get = 0) := by
      rintro ⟨h, h2⟩; exact n2 ⟨h2, h⟩
    have htr : a.transition =
        { nextframe := toInt16 (a.frame.get + a.framestep),
          framestep := a.framestep, ended := false } := by
      unfold Animation.transition
      rw [if_pos hzz, if_neg c1, if_neg c2]
    have hw : toInt16 (a.frame.get + a.framestep) = a.frame.get + a.framestep :=
      toInt16_exact _ (by omega) (by omega)
    rw [hst, hg, he, htr]
    simp only [hw]
    exact ⟨trivial, trivial, trivial⟩

theorem zigzag_update_witness :
    ∃ a1 e, Animation.exampleZigzag.update 100 = some (a1, e) ∧
      (Animation.exampleZigzag.frame.get = (Animation.exampleZigzag.frames.length : Int) - 1 ∧
          Animation.exampleZigzag.framestep = 1 →
        a1.framestep = -1 ∧
          a1.frame.get = (Animation.exampleZigzag.frames.length : Int) - 2 ∧ e = false) ∧
      (Animation.exampleZigzag.frame.get = 0 ∧ Animation.exampleZigzag.framestep = -1 →
        a1.framestep = 1 ∧ a1.frame.get = 1 ∧ e = true) ∧
      (¬ (Animation.exampleZigzag.frame.get = (Animation.exampleZigzag.frames.length : Int) - 1 ∧
            Animation.exampleZigzag.framestep = 1) →
        ¬ (Animation.exampleZigzag.frame.get = 0 ∧ Animation.exampleZigzag.framestep = -1) →
        a1.framestep = Animation.exampleZigzag.framestep ∧
          a1.frame.get = Animation.exampleZigzag.frame.get + Animation.exampleZigzag.framestep ∧
          e = false) :=
  zigzag_update Animation.exampleZigzag 100 Animation.exampleZigzag_valid rfl
    (by decide) (by decide)

/-- C5: a boundary-crossing `update` with overshoot `timestep - delay` always returns;
when the hold of the frame being entered is at least the overshoot, the remaining
hold becomes that hold minus the overshoot, and the frame quantity is retargeted to the
entered index with threshold `overshoot / timestep`. -/
theorem update_overshoot (a : Animation) (t : Nat) (hv : a.Valid) (hw : a.WellTyped)
    (ht : t < 65536) (hb : a.delay ≤ t) :
    ∃ a1 e nf, a.update t = some (a1, e) ∧ a1.get_frame = some nf ∧
      (t - a.delay ≤ nf.get_delay → a1.delay = nf.get_delay - (t - a.delay)) ∧
      a1.frame = a.frame.next a1.frame.get (fdiv (t - a.delay) t) ∧
      (0 < t → fdiv (t - a.delay) t = some (((t - a.delay : Nat) : ℚ) / (t : ℚ))) := by
  obtain ⟨f, nf, a1, e, hf, hnf, hu, hfr, _, _, hc⟩ := a.update_cases t hv
  rcases hc with ⟨hlt, _, _, _, _⟩ | ⟨_, he, hfm, hdl, hst⟩
  · omega
  have hdelta : u16sub t a.delay = t - a.delay := u16sub_exact _ _ hb ht
  have hg : a1.frame.get = a.transition.nextframe := by
    rw [hfm]; exact Interpolated.get_next _ _ _
  have hnd : nf.get_delay < 65536 := (hw.2 nf (frameAt_mem _ _ _ hnf)).1
  refine ⟨a1, e, nf, hu, ?_, ?_, ?_, ?_⟩
  · unfold Animation.get_frame; rw [hfr, hg]; exact hnf
  · intro hle
    rw [hdl, hdelta, if_pos hle]
    exact u16sub_exact _ _ hle hnd
  · rw [hg, hfm, hdelta]
  · intro hpos
    unfold fdiv
    rw [if_neg (by omega)]

theorem update_overshoot_witness :
    ∃ a1 e nf, Animation.exampleLoop.update 130 = some (a1, e) ∧
      a1.get_frame = some nf ∧
      (130 - Animation.exampleLoop.delay ≤ nf.get_delay →
        a1.delay = nf.get_delay - (130 - Animation.exampleLoop.delay)) ∧
      a1.frame = Animation.exampleLoop.frame.next a1.frame.get
        (fdiv (130 - Animation.exampleLoop.delay) 130) ∧
      (0 < 130 → fdiv (130 - Animation.exampleLoop.delay) 130
        = some (((130 - Animation.exampleLoop.delay : Nat) : ℚ) / ((130 : Nat) : ℚ))) :=
  update_overshoot Animation.exampleLoop 130 Animation.exampleLoop_valid
    Animation.exampleLoop_wellTyped (by decide) (by decide)

/-! ## Looping playback -/

/-- Without zigzag the index computation wraps from the last frame to frame 0 with
`ended = true` and otherwise steps forward by one. -/
theorem Animation.transition_loop (a : Animation) (hv : a.Valid) (hz : a.zigzag = false) :
    a.transition.nextframe
        = (if a.frame.get = (a.frames.length : Int) - 1 then 0 else a.frame.get + 1) ∧
      a.transition.ended = decide (a.frame.get = (a.frames.length : Int) - 1) ∧
      a.transition.framestep = a.framestep := by
  obtain ⟨hne, hlen, h0, h1, _⟩ := hv
  have hpos : 0 < a.frames.length := List.length_pos.mpr hne
  have hl : toInt16 ((a.frames.length : Int) - 1) = (a.frames.length : Int) - 1 :=
    toInt16_exact _ (by omega) (by omega)
  have hnz : ¬ (a.zigzag = true ∧ toInt16 ((a.frames.length : Int) - 1) > 0) := by
    rintro ⟨h, _⟩; rw [hz] at h; exact Bool.false_ne_true h
  unfold Animation.transition
  rw [if_neg hnz, hl]
  by_cases c : a.frame.get = (a.frames.length : Int) - 1
  · rw [if_pos c, if_pos c]
    exact ⟨rfl, by simp [c], rfl⟩
  · rw [if_neg c, if_neg c]
    have hw : toInt16 (a.frame.get + 1) = a.frame.get + 1 :=
      toInt16_exact _ (by omega) (by omega)
    exact ⟨hw, by simp [c], rfl⟩

/-- From a state at index `i` whose frames all hold `h` and whose remaining hold is
`h`, the next `m` updates by `h` walk the indices `i + 1, i + 2, ...` and report
`ended` exactly on the step that wraps to 0, as long as `i + m` does not pass `n`. -/
theorem Animation.trace_loop (h : Nat) (hh : h < 65536) :
    ∀ (m : Nat) (a : Animation) (i : Nat), a.zigzag = false → a.frames ≠ [] →
      a.frames.length ≤ 32768 → (∀ f ∈ a.frames, f.get_delay = h) → a.delay = h →
      a.framestep = 1 → a.frame.get = (i : Int) → i + m ≤ a.frames.length →
      a.trace (List.replicate m h) =
        some ((List.range m).map fun k =>
          ((((i + k + 1) % a.frames.length : Nat) : Int),
            decide (i + k + 1 = a.frames.length))) := by
  intro m
  induction m with
  | zero => intros; rfl
  | succ m ih =>
    intro a i hz hne hlen hall hd hs hg hm
    have hv : a.Valid := ⟨hne, hlen, by omega, by omega, Or.inl hs⟩
    obtain ⟨hnx, hend, hfs⟩ := a.transition_loop hv hz
    obtain ⟨f, nf, a1, e, hf, hnf, hu, hfr, hzz, _, hc⟩ := a.update_cases h hv
    rcases hc with ⟨hlt, _⟩ | ⟨_, he, hfm, hdl, hst⟩
    · omega
    have hg1 : a1.frame.get = a.transition.nextframe := by
      rw [hfm]; exact Interpolated.get_next _ _ _
    have hnd : nf.get_delay = h := hall nf (frameAt_mem _ _ _ hnf)
    have hd1 : a1.delay = h := by
      rw [hdl, hd, hnd]
      unfold u16sub
      split <;> omega
    have hall1 : ∀ f ∈ a1.frames, f.get_delay = h := by rw [hfr]; exact hall
    have hne1 : a1.frames ≠ [] := by rw [hfr]; exact hne
    have hlen1 : a1.frames.length ≤ 32768 := by rw [hfr]; exact hlen
    have hz1 : a1.zigzag = false := by rw [hzz]; exact hz
    have hs1 : a1.framestep = 1 := by rw [hst, hfs]; exact hs
    rw [List.replicate_succ]
    unfold Animation.trace
    simp only [hu]
    by_cases c : i + 1 = a.frames.length
    · have hm0 : m = 0 := by omega
      subst hm0
      have hc1 : a.frame.get = (a.frames.length : Int) - 1 := by omega
      have hi0 : a1.frame.get = ((0 : Nat) : Int) := by
        rw [hg1, hnx, if_pos hc1]; rfl
      have hrest := ih a1 0 hz1 hne1 hlen1 hall1 hd1 hs1 hi0 (by omega)
      have hr1 : List.range (0 + 1) = [0] := rfl
      rw [hrest, he, hend, hr1]
      simp only [List.range_zero, List.map_nil, List.map_cons, Nat.add_zero, c,
        Nat.mod_self, hi0, hc1, decide_True]
    · have hc1 : ¬ (a.frame.get = (a.frames.length : Int) - 1) := by omega
      have hi1 : a1.frame.get = ((i + 1 : Nat) : Int) := by
        rw [hg1, hnx, if_neg hc1, hg]; push_cast; rfl
      have hrest := ih a1 (i + 1) hz1 hne1 hlen1 hall1 hd1 hs1 hi1
        (by rw [hfr]; omega)
      rw [hrest, he, hend, hfr, List.range_succ_eq_map]
      have hmod : (i + 1) % a.frames.length = i + 1 := Nat.mod_eq_of_lt (by omega)
      simp only [List.map_cons, List.map_map, Nat.add_zero, hmod, hi1, hc1, c,
        decide_False, Option.some.injEq, List.cons.injEq, true_and]
      apply List.map_congr_left
      intro k _
      simp only [Function.comp, Nat.succ_eq_add_one]
      have e1 : i + 1 + k + 1 = i + (k + 1) + 1 := by omega
      rw [e1]

/-- C2: without zigzag, a boundary-crossing `update` at index `i` of `n` frames moves to
`i + 1` with `ended = false` when `i < n - 1`, and to 0 with `ended = true` when
`i = n - 1`; and from `reset` with every hold equal to `h`, `n` updates by `h` visit
the indices `1, ..., n - 1, 0` and return `ended = true` on the last one only. -/
theorem loop_update (a : Animation) (t h : Nat) (hz : a.zigzag = false)
    (hne : a.frames ≠ []) (hlen : a.frames.length ≤ 32768) (hh : h < 65536) :
    (a.Valid → a.delay ≤ t →
      ∃ a1, a.update t = some (a1, decide (a.frame.get = (a.frames.length : Int) - 1)) ∧
        a1.frame.get
          = (if a.frame.get = (a.frames.length : Int) - 1 then 0 else a.frame.get + 1)) ∧
    ((∀ f ∈ a.frames, f.get_delay = h) →
      ∃ a0, a.reset = some a0 ∧ a0.frame.get = 0 ∧
        a0.trace (List.replicate a.frames.length h) =
          some ((List.range a.frames.length).map fun k =>
            ((((k + 1) % a.frames.length : Nat) : Int),
              decide (k + 1 = a.frames.length)))) := by
  constructor
  · intro hv hb
    obtain ⟨hnx, hend, _⟩ := a.transition_loop hv hz
    obtain ⟨f, nf, a1, e, hf, hnf, hu, _, _, _, hc⟩ := a.update_cases t hv
    rcases hc with ⟨hlt, _⟩ | ⟨_, he, hfm, _, _⟩
    · omega
    refine ⟨a1, ?_, ?_⟩
    · rw [hu, he, hend]
    · rw [hfm, Interpolated.get_next, hnx]
  · intro hall
    have hpos : 0 < a.frames.length := List.length_pos.mpr hne
    obtain ⟨f0, hf0⟩ := frameAt_of_range a.frames 0 (le_refl 0) (by omega)
    have hr : a.reset = some { a with
        frame := Interpolated.set 0
        opacity := Interpolated.set (f0.start_opacity : ℚ)
        xyscale := Interpolated.set (f0.start_scale : ℚ)
        delay := f0.get_delay
        framestep := 1 } := by
      unfold Animation.reset; rw [hf0]
    refine ⟨_, hr, rfl, ?_⟩
    have key := Animation.trace_loop h hh a.frames.length { a with
        frame := Interpolated.set 0
        opacity := Interpolated.set (f0.start_opacity : ℚ)
        xyscale := Interpolated.set (f0.start_scale : ℚ)
        delay := f0.get_delay
        framestep := 1 } 0 hz hne hlen hall (hall f0 (frameAt_mem _ _ _ hf0)) rfl rfl
      (Nat.le_of_eq (Nat.zero_add _))
    simp only [Nat.zero_add] at key
    exact key

theorem loop_update_witness :
    (Animation.exampleLoop.Valid → Animation.exampleLoop.delay ≤ 100 →
      ∃ a1, Animation.exampleLoop.update 100
          = some (a1, decide (Animation.exampleLoop.frame.get
              = (Animation.exampleLoop.frames.length : Int) - 1)) ∧
        a1.frame.get
          = (if Animation.exampleLoop.frame.get
                = (Animation.exampleLoop.frames.length : Int) - 1
             then 0 else Animation.exampleLoop.frame.get + 1)) ∧
    ((∀ f ∈ Animation.exampleLoop.frames, f.get_delay = 100) →
      ∃ a0, Animation.exampleLoop.reset = some a0 ∧ a0.frame.get = 0 ∧
        a0.trace (List.replicate Animation.exampleLoop.frames.length 100) =
          some ((List.range Animation.exampleLoop.frames.length).map fun k =>
            ((((k + 1) % Animation.exampleLoop.frames.length : Nat) : Int),
              decide (k + 1 = Animation.exampleLoop.frames.length)))) :=
  loop_update Animation.exampleLoop 100 100 rfl (by decide) (by decide) (by decide)

/-- The looping and the zigzag example from the first frame: three updates by 100 ms
loop through `1, 2, 0`; five updates of the zigzag walk `1, 2, 1, 0, 1` and report
the end when leaving index 0 backwards. -/
theorem Animation.example_traces :
    Animation.exampleLoop.trace [100, 100, 100]
      = some [(1, false), (2, false), (0, true)] ∧
    Animation.exampleZigzag.trace [100, 100, 100, 100, 100]
      = some [(1, false), (2, false), (1, false), (0, false), (1, true)] := by
  constructor <;>
  simp [Animation.trace, Animation.update, Animation.get_frame, frameAt,
    Animation.exampleLoop, Animation.exampleZigzag, Animation.fresh, Animation.plainFrame,
    Animation.transition, Interpolated.get, Interpolated.set, Interpolated.next,
    Interpolated.add, Interpolated.last, Interpolated.normalize, Frame.get_delay,
    Frame.start_opacity, Frame.start_scale, fdiv, u16sub, toInt16]

/-! ## Invariants of reachable states -/

/-- C6: in every reachable state the remaining hold is at most the hold of the active
frame; and every further `update` returns a state whose remaining hold is the exact
difference the source computes (old hold minus timestep inside a hold; entered hold
minus overshoot, or the entered hold itself when the overshoot exceeds it), so no
`uint16` subtraction wraps. -/
theorem remaining_hold_bound (a : Animation) (hr : a.Reachable) :
    (∃ f, a.get_frame = some f ∧ a.delay ≤ f.get_delay) ∧
    ∀ t, t < 65536 → ∃ a1 e, a.update t = some (a1, e) ∧
      (t < a.delay → a1.delay + t = a.delay) ∧
      (a.delay ≤ t → u16sub t a.delay + a.delay = t ∧
        ∃ nf, a1.get_frame = some nf ∧ a1.delay ≤ nf.get_delay ∧
          ((t - a.delay ≤ nf.get_delay ∧ a1.delay + (t - a.delay) = nf.get_delay) ∨
           (nf.get_delay < t - a.delay ∧ a1.delay = nf.get_delay))) := by
  obtain ⟨hv, hw, _, hbound⟩ := a.reachable_inv hr
  refine ⟨hbound, ?_⟩
  intro t ht
  obtain ⟨f, nf, a1, e, hf, hnf, hu, hfr, _, _, hc⟩ := a.update_cases t hv
  refine ⟨a1, e, hu, ?_, ?_⟩
  · intro hlt
    rcases hc with ⟨_, _, _, hdl, _⟩ | ⟨hb, _⟩
    · have := u16sub_exact _ _ (Nat.le_of_lt hlt) hw.1
      omega
    · omega
  · intro hb
    rcases hc with ⟨hlt, _⟩ | ⟨_, _, hfm, hdl, _⟩
    · omega
    have hdelta : u16sub t a.delay = t - a.delay := u16sub_exact _ _ hb ht
    have hg : a1.frame.get = a.transition.nextframe := by
      rw [hfm]; exact Interpolated.get_next _ _ _
    have hnd : nf.get_delay < 65536 := (hw.2 nf (frameAt_mem _ _ _ hnf)).1
    refine ⟨by omega, nf, ?_, ?_⟩
    · unfold Animation.get_frame; rw [hfr, hg]; exact hnf
    · rw [hdelta] at hdl
      by_cases hle : t - a.delay ≤ nf.get_delay
      · rw [if_pos hle] at hdl
        have := u16sub_exact _ _ hle hnd
        exact ⟨by omega, Or.inl ⟨hle, by omega⟩⟩
      · rw [if_neg hle] at hdl
        exact ⟨by omega, Or.inr ⟨by omega, hdl⟩⟩

theorem remaining_hold_bound_witness :
    (∃ f, Animation.exampleLoop.get_frame = some f ∧
      Animation.exampleLoop.delay ≤ f.get_delay) ∧
    ∀ t, t < 65536 → ∃ a1 e, Animation.exampleLoop.update t = some (a1, e) ∧
      (t < Animation.exampleLoop.delay → a1.delay + t = Animation.exampleLoop.delay) ∧
      (Animation.exampleLoop.delay ≤ t →
        u16sub t Animation.exampleLoop.delay + Animation.exampleLoop.delay = t ∧
        ∃ nf, a1.get_frame = some nf ∧ a1.delay ≤ nf.get_delay ∧
          ((t - Animation.exampleLoop.delay ≤ nf.get_delay ∧
              a1.delay + (t - Animation.exampleLoop.delay) = nf.get_delay) ∨
           (nf.get_delay < t - Animation.exampleLoop.delay ∧ a1.delay = nf.get_delay))) :=
  remaining_hold_bound Animation.exampleLoop Animation.exampleLoop_reachable

/-- C7: in every reachable state there is at least one frame, the active frame index
lies in `[0, n - 1]` and the direction is +1 or -1; hence `get_frame` and the
`frames[nextframe]` of `update` index inside the frame list and `update` returns for
every timestep. -/
theorem index_in_range (a : Animation) (hr : a.Reachable) :
    1 ≤ a.frames.length ∧ 0 ≤ a.frame.get ∧ a.frame.get ≤ (a.frames.length : Int) - 1 ∧
    (a.framestep = 1 ∨ a.framestep = -1) ∧
    (∃ f, a.get_frame = some f) ∧
    (∃ nf, frameAt a.frames a.transition.nextframe = some nf) ∧
    ∀ t, ∃ a1 e, a.update t = some (a1, e) := by
  obtain ⟨hv, _, _, _⟩ := a.reachable_inv hr
  have hpos : 0 < a.frames.length := List.length_pos.mpr hv.1
  have h1 := hv.2.2.2.1
  refine ⟨hpos, hv.2.2.1, by omega, hv.2.2.2.2, ?_, ?_, ?_⟩
  · obtain ⟨f, _, _, _, hf, _⟩ := a.update_cases 0 hv
    exact ⟨f, hf⟩
  · obtain ⟨_, nf, _, _, _, hnf, _⟩ := a.update_cases 0 hv
    exact ⟨nf, hnf⟩
  · intro t
    obtain ⟨_, _, a1, e, _, _, hu, _⟩ := a.update_cases t hv
    exact ⟨a1, e, hu⟩

theorem index_in_range_witness :
    1 ≤ Animation.exampleStatic.frames.length ∧ 0 ≤ Animation.exampleStatic.frame.get ∧
    Animation.exampleStatic.frame.get ≤ (Animation.exampleStatic.frames.length : Int) - 1 ∧
    (Animation.exampleStatic.framestep = 1 ∨ Animation.exampleStatic.framestep = -1) ∧
    (∃ f, Animation.exampleStatic.get_frame = some f) ∧
    (∃ nf, frameAt Animation.exampleStatic.frames
      Animation.exampleStatic.transition.nextframe = some nf) ∧
    ∀ t, ∃ a1 e, Animation.exampleStatic.update t = some (a1, e) :=
  index_in_range Animation.exampleStatic Animation.exampleStatic_reachable

/-! ## Frame construction -/

/-- C8: a frame built from a record reports hold 100 when the raw delay is absent or 0,
reports a non-zero `uint16` raw delay unchanged, and so never reports hold 0. -/
theorem frame_delay_default (src : Node) :
    ((src.delay = none ∨ src.delay = some 0) → (Frame.ofNode src).get_delay = 100) ∧
    (∀ d : Nat, 0 < d → d < 65536 → src.delay = some (d : Int) →
      (Frame.ofNode src).get_delay = d) ∧
    (Frame.ofNode src).get_delay ≠ 0 := by
  refine ⟨?_, ?_, ?_⟩
  · rintro (h | h) <;> simp [Frame.ofNode, Frame.get_delay, Node.getInteger, h, toU16]
  · intro d hpos hlt h
    have hd : toU16 (d : Int) = d := toU16_natCast d hlt
    simp only [Frame.ofNode, Frame.get_delay, Node.getInteger, h, Option.getD_some, hd]
    rw [if_neg (by omega)]
  · simp only [Frame.ofNode, Frame.get_delay]
    split <;> omega

theorem frame_delay_default_witness :
    (Frame.ofNode ⟨none, none, none, none, none⟩).get_delay = 100 ∧
    (Frame.ofNode ⟨some 0, none, none, none, none⟩).get_delay = 100 ∧
    (Frame.ofNode ⟨some 250, none, none, none, none⟩).get_delay = 250 :=
  ⟨(frame_delay_default ⟨none, none, none, none, none⟩).1 (Or.inl rfl),
   (frame_delay_default ⟨some 0, none, none, none, none⟩).1 (Or.inr rfl),
   (frame_delay_default ⟨some 250, none, none, none, none⟩).2.1 250 (by decide) (by decide) rfl⟩

/-- C9: opacity hint resolution for hints in [0,255]: both present gives `(a0, a1)`,
only `a0` gives `(a0, 255 - a0)`, only `a1` gives `(255 - a1, a1)`, neither gives
`(255, 255)`. -/
theorem frame_opacity_resolution (src : Node) (a0 a1 : Nat) (h0 : a0 ≤ 255) (h1 : a1 ≤ 255) :
    (Frame.ofNode { src with a0 := some (a0 : Int), a1 := some (a1 : Int) }).opacities
      = (a0, a1) ∧
    (Frame.ofNode { src with a0 := some (a0 : Int), a1 := none }).opacities
      = (a0, 255 - a0) ∧
    (Frame.ofNode { src with a0 := none, a1 := some (a1 : Int) }).opacities
      = (255 - a1, a1) ∧
    (Frame.ofNode { src with a0 := none, a1 := none }).opacities = (255, 255) := by
  have e0 : toU8 (a0 : Int) = a0 := toU8_natCast a0 (by omega)
  have e1 : toU8 (a1 : Int) = a1 := toU8_natCast a1 (by omega)
  have s0 : u8sub 255 a0 = 255 - a0 := u8sub_255 a0 h0
  have s1 : u8sub 255 a1 = 255 - a1 := u8sub_255 a1 h1
  refine ⟨?_, ?_, ?_, ?_⟩ <;> simp [Frame.ofNode, Node.getInteger, e0, e1, s0, s1]

theorem frame_opacity_resolution_witness :
    (Frame.ofNode ⟨none, some 10, some 200, none, none⟩).opacities = (10, 200) ∧
    (Frame.ofNode ⟨none, none, some 60, none, none⟩).opacities = (195, 60) ∧
    (Frame.ofNode ⟨none, none, none, none, none⟩).opacities = (255, 255) :=
  ⟨(frame_opacity_resolution ⟨none, none, none, none, none⟩ 10 200 (by decide) (by decide)).1,
   (frame_opacity_resolution ⟨none, none, none, none, none⟩ 0 60 (by decide) (by decide)).2.2.1,
   (frame_opacity_resolution ⟨none, none, none, none, none⟩ 0 0 (by decide) (by decide)).2.2.2⟩

/-- C10: scale hint resolution for `uint16` hints: both present gives `(z0, z1)`, only
`z0` gives `(z0, 0)`, only `z1` gives `(100, z1)`, neither gives `(100, 100)`. -/
theorem frame_scale_resolution (src : Node) (z0 z1 : Nat) (h0 : z0 < 65536) (h1 : z1 < 65536) :
    (Frame.ofNode { src with z0 := some (z0 : Int), z1 := some (z1 : Int) }).scales
      = (z0, z1) ∧
    (Frame.ofNode { src with z0 := some (z0 : Int), z1 := none }).scales = (z0, 0) ∧
    (Frame.ofNode { src with z0 := none, z1 := some (z1 : Int) }).scales = (100, z1) ∧
    (Frame.ofNode { src with z0 := none, z1 := none }).scales = (100, 100) := by
  have e0 : toU16 (z0 : Int) = z0 := toU16_natCast z0 h0
  have e1 : toU16 (z1 : Int) = z1 := toU16_natCast z1 h1
  refine ⟨?_, ?_, ?_, ?_⟩ <;> simp [Frame.ofNode, Node.getInteger, e0, e1]

theorem frame_scale_resolution_witness :
    (Frame.ofNode ⟨none, none, none, some 50, none⟩).scales = (50, 0) ∧
    (Frame.ofNode ⟨none, none, none, none, none⟩).scales = (100, 100) :=
  ⟨(frame_scale_resolution ⟨none, none, none, none, none⟩ 50 0 (by decide) (by decide)).2.1,
   (frame_scale_resolution ⟨none, none, none, none, none⟩ 0 0 (by decide) (by decide)).2.2.2⟩

/-- C11, refuted as stated: with only `z0 = 50` present the scale range is `(50, 0)`,
whose start is not 100. -/
theorem frame_scale_z0_only_refuted :
    (Frame.ofNode ⟨none, none, none, some 50, none⟩).scales = (50, 0) ∧
    (Frame.ofNode ⟨none, none, none, some 50, none⟩).scales.1 ≠ 100 := by
  constructor <;> simp [Frame.ofNode, Node.getInteger, toU16]

/-- C11, amended: with only the `z0` hint present the scale range starts at `z0`
converted to `uint16` (at `z0` itself when it is a `uint16` value) and ends at 0. -/
theorem frame_scale_z0_only (src : Node) (z0 : Int) :
    (Frame.ofNode { src with z0 := some z0, z1 := none }).scales = (toU16 z0, 0) ∧
    (0 ≤ z0 → z0 < 65536 →
      ((Frame.ofNode { src with z0 := some z0, z1 := none }).scales.1 : Int) = z0) := by
  have h : (Frame.ofNode { src with z0 := some z0, z1 := none }).scales = (toU16 z0, 0) := by
    simp [Frame.ofNode, Node.getInteger]
  refine ⟨h, ?_⟩
  intro h0 h1
  rw [h]
  show ((toU16 z0 : Nat) : Int) = z0
  unfold toU16
  omega

theorem frame_scale_z0_only_witness :
    (Frame.ofNode ⟨none, none, none, some 50, none⟩).scales = (toU16 50, 0) ∧
    ((0 : Int) ≤ 50 → (50 : Int) < 65536 →
      ((Frame.ofNode ⟨none, none, none, some 50, none⟩).scales.1 : Int) = 50) :=
  frame_scale_z0_only ⟨none, none, none, none, none⟩ 50

/-! ## Hold queries -/

/-- `get_delay` returns the hold of frame `k` for `0 <= k < n` and 0 for every other
index. -/
theorem Animation.get_delay_eq (a : Animation) (k : Int) :
    (∀ f, frameAt a.frames k = some f → a.get_delay k = some f.get_delay) ∧
    (¬ (0 ≤ k ∧ k < (a.frames.length : Int)) → a.get_delay k = some 0) := by
  constructor
  · intro f hf
    obtain ⟨h0, h1⟩ := frameAt_range _ _ _ hf
    unfold Animation.get_delay
    rw [if_pos ⟨h0, h1⟩, hf]
  · intro h
    unfold Animation.get_delay
    rw [if_neg h]

/-- The loop of `getdelayuntil` for an index inside the frame list: every remaining
round adds the hold of `frames[frame_id]`. -/
theorem Animation.getdelayuntilFrom_inside (frames : List Frame) (k : Nat) (f : Frame)
    (hf : frameAt frames (k : Int) = some f) :
    ∀ (m i total : Nat), i + m = k → total < 65536 →
      Animation.getdelayuntilFrom frames (k : Int) i total
        = some ((total + m * f.get_delay) % 65536) := by
  have hk : k < frames.length := by
    have := (frameAt_range _ _ _ hf).2
    omega
  intro m
  induction m with
  | zero =>
    intro i total hi ht
    unfold Animation.getdelayuntilFrom
    rw [if_neg (by omega)]
    simp [Nat.mod_eq_of_lt ht]
  | succ m ih =>
    intro i total hi ht
    unfold Animation.getdelayuntilFrom
    rw [if_pos (by omega), dif_neg (by omega)]
    simp only [hf]
    rw [ih (i + 1) _ (by omega) (Nat.mod_lt _ (by decide))]
    congr 1
    rw [Nat.succ_mul]
    omega

/-- For `0 <= k < n`, `getdelayuntil(k)` returns `k` times the hold of frame `k`,
modulo 2^16. -/
theorem Animation.getdelayuntil_inside (a : Animation) (k : Nat) (f : Frame)
    (hf : frameAt a.frames (k : Int) = some f) :
    a.getdelayuntil (k : Int) = some ((k * f.get_delay) % 65536) := by
  unfold Animation.getdelayuntil
  rw [Animation.getdelayuntilFrom_inside a.frames k f hf k 0 0 (by omega) (by decide)]
  simp

/-- For a non-empty frame list and `k >= n`, the first round of `getdelayuntil(k)`
reads `frames[k]` outside the list. -/
theorem Animation.getdelayuntil_past (a : Animation) (k : Int) (hne : a.frames ≠ [])
    (hk : (a.frames.length : Int) ≤ k) : a.getdelayuntil k = none := by
  have hpos : 0 < a.frames.length := List.length_pos.mpr hne
  have hnone : frameAt a.frames k = none := by
    cases h : frameAt a.frames k with
    | none => rfl
    | some f => have := (frameAt_range _ _ _ h).2; omega
  unfold Animation.getdelayuntil Animation.getdelayuntilFrom
  rw [if_pos (by omega), dif_neg (by omega)]
  simp only [hnone]

/-- C12, the defect: over holds 100, 200, 50 the cumulative hold up to index 2 is 300,
but `getdelayuntil(2)` returns 100 (twice the hold of frame 2); up to index 3 it is 350,
but `getdelayuntil(3)` reads `frames[3]` outside the list. `get_delay` is as claimed
(here 200 for index 1, 0 for index 3 and for index -1). -/
theorem getdelayuntil_sums_wrong_frame :
    Animation.exampleHolds.getdelayuntil 2 = some 100 ∧
    Animation.cumulativeHold Animation.exampleHolds.frames 2 = 300 ∧
    Animation.exampleHolds.getdelayuntil 3 = none ∧
    Animation.cumulativeHold Animation.exampleHolds.frames 3 = 350 ∧
    Animation.exampleHolds.get_delay 1 = some 200 ∧
    Animation.exampleHolds.get_delay 3 = some 0 ∧
    Animation.exampleHolds.get_delay (-1) = some 0 := by
  refine ⟨?_, by decide, ?_, by decide, by decide, by decide, by decide⟩
  · exact Animation.getdelayuntil_inside Animation.exampleHolds 2 (Animation.plainFrame 50) rfl
  · exact Animation.getdelayuntil_past Animation.exampleHolds 3 (by decide) (by decide)

/-! ## Reset -/

/-- C13: on any state with a non-empty frame list `reset` returns a state with frame
index 0 in both the committed and the pending slot, opacity and scale set to the start
values of frame 0, remaining hold equal to the hold of frame 0, direction +1, and the
frame list and both flags unchanged; a second `reset` changes nothing. -/
theorem reset_spec (a : Animation) (hne : a.frames ≠ []) :
    ∃ f0 a1, frameAt a.frames 0 = some f0 ∧ a.reset = some a1 ∧
      a1.frame.committed = 0 ∧ a1.frame.pending = 0 ∧
      a1.opacity = Interpolated.set (f0.start_opacity : ℚ) ∧
      a1.xyscale = Interpolated.set (f0.start_scale : ℚ) ∧
      a1.delay = f0.get_delay ∧ a1.framestep = 1 ∧
      a1.frames = a.frames ∧ a1.zigzag = a.zigzag ∧ a1.animated = a.animated ∧
      a1.reset = some a1 := by
  have hpos : 0 < a.frames.length := List.length_pos.mpr hne
  obtain ⟨f0, hf0⟩ := frameAt_of_range a.frames 0 (le_refl 0) (by omega)
  refine ⟨f0, { a with
      frame := Interpolated.set 0
      opacity := Interpolated.set (f0.start_opacity : ℚ)
      xyscale := Interpolated.set (f0.start_scale : ℚ)
      delay := f0.get_delay
      framestep := 1 }, hf0, ?_, rfl, rfl, rfl, rfl, rfl, rfl, rfl, rfl, rfl, ?_⟩
  · unfold Animation.reset; rw [hf0]
  · unfold Animation.reset; simp only [hf0]

theorem reset_spec_witness :
    ∃ f0 a1, frameAt Animation.exampleHolds.frames 0 = some f0 ∧
      Animation.exampleHolds.reset = some a1 ∧
      a1.frame.committed = 0 ∧ a1.frame.pending = 0 ∧
      a1.opacity = Interpolated.set (f0.start_opacity : ℚ) ∧
      a1.xyscale = Interpolated.set (f0.start_scale : ℚ) ∧
      a1.delay = f0.get_delay ∧ a1.framestep = 1 ∧
      a1.frames = Animation.exampleHolds.frames ∧
      a1.zigzag = Animation.exampleHolds.zigzag ∧
      a1.animated = Animation.exampleHolds.animated ∧
      a1.reset = some a1 :=
  reset_spec Animation.exampleHolds (by decide)

/-! ## Blend endpoints -/

/-- C17: for every interpolated quantity, float or frame index, `blend(0)` is the
committed value and `blend(1)` the pending one; this includes the frame index right
after `next` (retarget) with any threshold. -/
theorem blend_endpoints :
    (∀ q : Interpolated ℚ, q.blend 0 = q.committed ∧ q.blend 1 = q.pending) ∧
    (∀ q : Interpolated Int, q.blendIndex 0 = q.committed ∧ q.blendIndex 1 = q.pending) ∧
    (∀ (q : Interpolated Int) (v : Int) (thrs : Option ℚ),
      (q.next v thrs).blendIndex 0 = (q.next v thrs).committed ∧
      (q.next v thrs).blendIndex 1 = v) := by
  have hq : ∀ q : Interpolated ℚ, q.blend 0 = q.committed ∧ q.blend 1 = q.pending := by
    intro q
    unfold Interpolated.blend
    constructor <;> ring
  have hi : ∀ q : Interpolated Int,
      q.blendIndex 0 = q.committed ∧ q.blendIndex 1 = q.pending := by
    intro q
    unfold Interpolated.blendIndex
    constructor
    · rw [mul_zero, add_zero]; exact round_intCast _
    · rw [mul_one, add_sub_cancel]; exact round_intCast _
  refine ⟨hq, hi, ?_⟩
  intro q v thrs
  refine ⟨(hi _).1, ?_⟩
  rw [(hi _).2]
  exact Interpolated.get_next q v thrs

/-! ## Background type lookup -/

/-- C20: `typebyid(id)` returns the type whose numeric value is `id` for every `id` in
`[0, 7]`, returns `NORMAL` for every other `id`, and so always returns one of the
eight enumerators. -/
theorem typebyid_spec (id : Int) :
    (0 ≤ id ∧ id ≤ 7 → ∃ ty, (typebyid id).1 = some ty ∧ ty.value = id) ∧
    (¬ (0 ≤ id ∧ id ≤ 7) → (typebyid id).1 = some BackgroundType.NORMAL) ∧
    (∃ ty, (typebyid id).1 = some ty ∧ 0 ≤ ty.value ∧ ty.value ≤ 7) := by
  have hin : 0 ≤ id ∧ id ≤ 7 → ∃ ty, (typebyid id).1 = some ty ∧ ty.value = id := by
    rintro ⟨h0, h7⟩
    have hc : id ≥ BackgroundType.NORMAL.value ∧ id ≤ BackgroundType.VMOVEB.value := ⟨h0, h7⟩
    unfold typebyid
    rw [if_pos hc]
    interval_cases id <;> simp [BackgroundType.ofValue, BackgroundType.value]
  have hout : ¬ (0 ≤ id ∧ id ≤ 7) → (typebyid id).1 = some BackgroundType.NORMAL := by
    intro h
    have hc : ¬ (id ≥ BackgroundType.NORMAL.value ∧ id ≤ BackgroundType.VMOVEB.value) := h
    unfold typebyid
    rw [if_neg hc]
  refine ⟨hin, hout, ?_⟩
  by_cases h : 0 ≤ id ∧ id ≤ 7
  · obtain ⟨ty, hty, hv⟩ := hin h
    exact ⟨ty, hty, by rw [hv]; exact h.1, by rw [hv]; exact h.2⟩
  · exact ⟨BackgroundType.NORMAL, hout h, by decide, by decide⟩

theorem typebyid_spec_witness :
    (∃ ty, (typebyid 5).1 = some ty ∧ ty.value = 5) ∧
    (typebyid 42).1 = some BackgroundType.NORMAL ∧
    (typebyid (-1)).1 = some BackgroundType.NORMAL :=
  ⟨(typebyid_spec 5).1 (by decide), (typebyid_spec 42).2.1 (by decide),
   (typebyid_spec (-1)).2.1 (by decide)⟩

/-! ## Opacity and scale inside `update` -/

/-- The opacity and scale quantities after the branch of `update` taken when
`timestep < delay`: the scale is stepped and never reset; the opacity is set to 0 when
the scale before the step is negative, else clamped on its own value before the step,
else stepped. -/
theorem Animation.update_hold_quantities (a : Animation) (t : Nat) (f : Frame)
    (hf : a.get_frame = some f) (ht : t < a.delay) :
    ∃ a1, a.update t = some (a1, false) ∧
      a1.xyscale = a.xyscale.add (f.scalestep t) ∧
      a1.opacity =
        (if a.xyscale.pending < 0 then Interpolated.set 0
         else if a.opacity.pending < 0 then Interpolated.set 0
         else if a.opacity.pending > 255 then Interpolated.set 255
         else a.opacity.add (f.opcstep t)) := by
  unfold Animation.update
  rw [hf]
  simp only [ge_iff_le, if_neg (Nat.not_le.mpr ht)]
  exact ⟨_, rfl, rfl, rfl⟩

/-- The branch of the scale test itself, on a state outside the reachable ones: from
the looping example with its scale forced to -1, `update 30` sets the opacity quantity
(255 before) to 0 and leaves the scale at -1. -/
theorem scale_clamp_sets_opacity :
    Animation.exampleNegativeScale.opacity = Interpolated.set 255 ∧
    ∃ a1, Animation.exampleNegativeScale.update 30 = some (a1, false) ∧
      a1.opacity = Interpolated.set 0 ∧ a1.xyscale.pending = -1 ∧
      a1.xyscale.committed = -1 := by
  refine ⟨rfl, ?_⟩
  obtain ⟨a1, hu, hx, ho⟩ := Animation.update_hold_quantities
    Animation.exampleNegativeScale 30 (Animation.plainFrame 100) rfl (by decide)
  refine ⟨a1, hu, ?_, ?_, ?_⟩
  · rw [ho]
    simp [Animation.exampleNegativeScale, Interpolated.set]
  · rw [hx]
    simp [Animation.exampleNegativeScale, Interpolated.set, Interpolated.add,
      Frame.scalestep, Animation.plainFrame]
  · rw [hx]
    simp [Animation.exampleNegativeScale, Interpolated.set, Interpolated.add]

/-! ## Division by the timestep -/

theorem Animation.exampleDegenerate_reachable : Animation.exampleDegenerate.Reachable := by
  refine @Animation.Reachable.construct
    (Animation.unreset [Frame.empty] false false) _ ?_ ?_
  · refine ⟨by decide, by decide, ?_, by decide⟩
    intro f hf
    simp only [Animation.unreset, List.mem_singleton] at hf
    subst hf
    decide
  · simp [Animation.reset, frameAt, Animation.unreset, Animation.exampleDegenerate,
      Frame.empty, Frame.start_opacity, Frame.start_scale, Frame.get_delay]

/-- C19, the defect: the default-constructed sequencer is reachable with remaining
hold 0; `update 0` takes the boundary branch, whose quotient `0 / 0` has no value, and
hands that threshold to the frame quantity. -/
theorem zero_timestep_divides_by_zero :
    Animation.exampleDegenerate.Reachable ∧
    Animation.ofNothing = some Animation.exampleDegenerate ∧
    Animation.exampleDegenerate.delay ≤ 0 ∧
    fdiv (u16sub 0 Animation.exampleDegenerate.delay) 0 = none ∧
    ∃ a1 e, Animation.exampleDegenerate.update 0 = some (a1, e) ∧
      a1.frame = Animation.exampleDegenerate.frame.next
        Animation.exampleDegenerate.transition.nextframe none := by
  refine ⟨Animation.exampleDegenerate_reachable, ?_, by decide, by decide, ?_⟩
  · simp [Animation.ofNothing, Animation.reset, frameAt, Animation.unreset,
      Animation.exampleDegenerate, Frame.empty, Frame.start_opacity, Frame.start_scale,
      Frame.get_delay]
  · obtain ⟨a1, hu, hfm, _⟩ := Animation.update_boundary Animation.exampleDegenerate 0
      Frame.empty Frame.empty rfl (by decide) rfl
    exact ⟨a1, _, hu, hfm⟩

/-! ## Range of opacity and scale -/

theorem Frame.opcstep_zero (f : Frame) : f.opcstep 0 = 0 := by
  unfold Frame.opcstep
  split <;> simp

theorem Frame.scalestep_zero (f : Frame) : f.scalestep 0 = 0 := by
  unfold Frame.scalestep
  split <;> simp

theorem Frame.opcstep_add (f : Frame) (x y : Nat) :
    f.opcstep (x + y) = f.opcstep x + f.opcstep y := by
  unfold Frame.opcstep
  split
  · simp
  · push_cast; ring

theorem Frame.scalestep_add (f : Frame) (x y : Nat) :
    f.scalestep (x + y) = f.scalestep x + f.scalestep y := by
  unfold Frame.scalestep
  split
  · simp
  · push_cast; ring

/-- A value stepped from `s` towards `e` for `x` out of `d` time units stays at or
above 0 when both ends do. -/
theorem lerp_nonneg (s e x d : ℚ) (hs : 0 ≤ s) (he : 0 ≤ e) (hx : 0 ≤ x) (hxd : x ≤ d)
    (hd : 0 < d) : 0 ≤ s + x * (e - s) / d := by
  have h : s + x * (e - s) / d = (s * (d - x) + x * e) / d := by
    field_simp; ring
  rw [h]
  exact div_nonneg (add_nonneg (mul_nonneg hs (by linarith)) (mul_nonneg hx he))
    (le_of_lt hd)

/-- A value stepped from `s` towards `e` for `x` out of `d` time units stays at or
below a bound `b` of both ends. -/
theorem lerp_le (s e x d b : ℚ) (hs : s ≤ b) (he : e ≤ b) (hx : 0 ≤ x) (hxd : x ≤ d)
    (hd : 0 < d) : s + x * (e - s) / d ≤ b := by
  have h : s + x * (e - s) / d = (s * (d - x) + x * e) / d := by
    field_simp; ring
  rw [h, div_le_iff₀ hd]
  have h1 : s * (d - x) ≤ b * (d - x) := mul_le_mul_of_nonneg_right hs (by linarith)
  have h2 : x * e ≤ x * b := mul_le_mul_of_nonneg_left he hx
  nlinarith

theorem Frame.opacity_range (f : Frame) (el : Nat) (hw : f.WellTyped)
    (hel : el ≤ f.get_delay) :
    0 ≤ (f.start_opacity : ℚ) + f.opcstep el ∧
      (f.start_opacity : ℚ) + f.opcstep el ≤ 255 := by
  obtain ⟨_, ho1, ho2, _, _⟩ := hw
  have hs0 : (0 : ℚ) ≤ (f.opacities.1 : ℚ) := Nat.cast_nonneg _
  have he0 : (0 : ℚ) ≤ (f.opacities.2 : ℚ) := Nat.cast_nonneg _
  have hs1 : (f.opacities.1 : ℚ) ≤ 255 := by
    have : f.opacities.1 ≤ 255 := by omega
    exact_mod_cast this
  have he1 : (f.opacities.2 : ℚ) ≤ 255 := by
    have : f.opacities.2 ≤ 255 := by omega
    exact_mod_cast this
  unfold Frame.opcstep Frame.start_opacity
  split
  · rw [add_zero]; exact ⟨hs0, hs1⟩
  · rename_i hd
    have hdpos : (0 : ℚ) < (f.delay : ℚ) := by
      have : 0 < f.delay := Nat.pos_of_ne_zero hd
      exact_mod_cast this
    have hx0 : (0 : ℚ) ≤ (el : ℚ) := Nat.cast_nonneg _
    have hxd : (el : ℚ) ≤ (f.delay : ℚ) := by exact_mod_cast hel
    push_cast
    exact ⟨lerp_nonneg _ _ _ _ hs0 he0 hx0 hxd hdpos,
      lerp_le _ _ _ _ 255 hs1 he1 hx0 hxd hdpos⟩

theorem Frame.scale_range (f : Frame) (el : Nat) (hel : el ≤ f.get_delay) :
    0 ≤ (f.start_scale : ℚ) + f.scalestep el := by
  have hs0 : (0 : ℚ) ≤ (f.scales.1 : ℚ) := Nat.cast_nonneg _
  have he0 : (0 : ℚ) ≤ (f.scales.2 : ℚ) := Nat.cast_nonneg _
  unfold Frame.scalestep Frame.start_scale
  split
  · rw [add_zero]; exact hs0
  · rename_i hd
    have hdpos : (0 : ℚ) < (f.delay : ℚ) := by
      have : 0 < f.delay := Nat.pos_of_ne_zero hd
      exact_mod_cast this
    have hx0 : (0 : ℚ) ≤ (el : ℚ) := Nat.cast_nonneg _
    have hxd : (el : ℚ) ≤ (f.delay : ℚ) := by exact_mod_cast hel
    push_cast
    exact lerp_nonneg _ _ _ _ hs0 he0 hx0 hxd hdpos

theorem Animation.reset_tracks (a a1 : Animation) (hne : a.frames ≠ [])
    (hr : a.reset = some a1) : a1.Tracks := by
  have hpos : 0 < a.frames.length := List.length_pos.mpr hne
  obtain ⟨f0, hf0⟩ := frameAt_of_range a.frames 0 (le_refl 0) (by omega)
  unfold Animation.reset at hr
  rw [hf0] at hr
  simp only [Option.some.injEq] at hr
  subst hr
  refine ⟨f0, 0, 0, hf0, le_refl 0, by simp, ?_, ?_, ?_, ?_⟩
  · simp [Interpolated.set, Frame.opcstep_zero]
  · simp [Interpolated.set, Frame.opcstep_zero]
  · simp [Interpolated.set, Frame.scalestep_zero]
  · simp [Interpolated.set, Frame.scalestep_zero]

theorem Animation.update_tracks (a a1 : Animation) (t : Nat) (e : Bool) (hi : a.Inv)
    (htr : a.Tracks) (hu : a.update t = some (a1, e)) : a1.Tracks := by
  obtain ⟨hv, hw, _, _⟩ := hi
  obtain ⟨f, el, ec, hf, hce, hed, hop, hoc, hsp, hsc⟩ := htr
  have hwf : f.WellTyped := hw.2 f (frameAt_mem _ _ _ hf)
  rcases Nat.lt_or_ge t a.delay with ht | hb
  · obtain ⟨a2, hu2, hfm, hdl, _, hfr, _, _⟩ := a.update_hold t f hf ht
    obtain ⟨a3, hu3, hx, ho⟩ := a.update_hold_quantities t f hf ht
    rw [hu2] at hu hu3
    simp only [Option.some.injEq, Prod.mk.injEq] at hu hu3
    obtain ⟨rfl, _⟩ := hu
    obtain ⟨rfl, _⟩ := hu3
    have hro := f.opacity_range el hwf (by omega)
    have hrs := f.scale_range el (by omega)
    rw [← hop] at hro
    rw [← hsp] at hrs
    rw [if_neg (not_lt.mpr hrs), if_neg (not_lt.mpr hro.1),
      if_neg (not_lt.mpr hro.2)] at ho
    have hle : a2.delay ≤ a.delay - t := by
      rw [hdl]; exact u16sub_le _ _ (Nat.le_of_lt ht)
    refine ⟨f, el + t, el, ?_, by omega, by omega, ?_, ?_, ?_, ?_⟩
    · unfold Animation.get_frame; rw [hfr, hfm]; exact hf
    · rw [ho, Frame.opcstep_add, ← add_assoc, ← hop]; rfl
    · rw [ho, ← hop]; rfl
    · rw [hx, Frame.scalestep_add, ← add_assoc, ← hsp]; rfl
    · rw [hx, ← hsp]; rfl
  · obtain ⟨hn0, hn1, _⟩ := a.transition_range hv
    obtain ⟨nf, hn⟩ := frameAt_of_range a.frames a.transition.nextframe hn0 hn1
    obtain ⟨a2, hu2, hfm, hdl, _, ho, hx, hfr, _, _⟩ :=
      a.update_boundary t f nf hf hb hn
    rw [hu2] at hu
    simp only [Option.some.injEq, Prod.mk.injEq] at hu
    obtain ⟨rfl, _⟩ := hu
    have hle : a2.delay ≤ nf.get_delay := by
      rw [hdl]
      split
      · rename_i hge
        have := u16sub_le nf.get_delay (u16sub t a.delay) hge
        omega
      · exact le_refl _
    refine ⟨nf, 0, 0, ?_, le_refl 0, by omega, ?_, ?_, ?_, ?_⟩
    · unfold Animation.get_frame
      rw [hfr, hfm, Interpolated.get_next]; exact hn
    · rw [ho]; simp [Interpolated.set, Frame.opcstep_zero]
    · rw [ho]; simp [Interpolated.set, Frame.opcstep_zero]
    · rw [hx]; simp [Interpolated.set, Frame.scalestep_zero]
    · rw [hx]; simp [Interpolated.set, Frame.scalestep_zero]

theorem Animation.reachable_tracks (a : Animation) (h : a.Reachable) : a.Tracks := by
  induction h with
  | construct hc hr => exact Animation.reset_tracks _ _ hc.1 hr
  | reset hp hr _ => exact Animation.reset_tracks _ _ (Animation.reachable_inv _ hp).1.1 hr
  | update hp _ hu ih => exact Animation.update_tracks _ _ _ _ (Animation.reachable_inv _ hp) ih hu

/-- C14: in every reachable state the opacity quantity lies in `[0, 255]` and the scale
quantity is at least 0, for the pending and the committed value alike. -/
theorem quantities_in_range (a : Animation) (hr : a.Reachable) :
    (0 ≤ a.opacity.pending ∧ a.opacity.pending ≤ 255) ∧
    (0 ≤ a.opacity.committed ∧ a.opacity.committed ≤ 255) ∧
    0 ≤ a.xyscale.pending ∧ 0 ≤ a.xyscale.committed := by
  obtain ⟨_, hw, _, _⟩ := a.reachable_inv hr
  obtain ⟨f, el, ec, hf, hce, hed, hop, hoc, hsp, hsc⟩ := a.reachable_tracks hr
  have hwf : f.WellTyped := hw.2 f (frameAt_mem _ _ _ hf)
  rw [hop, hoc, hsp, hsc]
  exact ⟨f.opacity_range el hwf (by omega), f.opacity_range ec hwf (by omega),
    f.scale_range el (by omega), f.scale_range ec (by omega)⟩

theorem quantities_in_range_witness :
    (0 ≤ Animation.exampleLoop.opacity.pending ∧
      Animation.exampleLoop.opacity.pending ≤ 255) ∧
    (0 ≤ Animation.exampleLoop.opacity.committed ∧
      Animation.exampleLoop.opacity.committed ≤ 255) ∧
    0 ≤ Animation.exampleLoop.xyscale.pending ∧
    0 ≤ Animation.exampleLoop.xyscale.committed :=
  quantities_in_range Animation.exampleLoop Animation.exampleLoop_reachable

/-! ## Drawing a static sequencer -/

theorem Animation.reset_frame (a a1 : Animation) (hr : a.reset = some a1) :
    a1.frame = Interpolated.set 0 ∧ a1.frames = a.frames := by
  unfold Animation.reset at hr
  split at hr
  · exact absurd hr (by simp)
  · simp only [Option.some.injEq] at hr
    subst hr
    exact ⟨rfl, rfl⟩

/-- With a single frame the index computation of `update` stays on frame 0. -/
theorem Animation.transition_single (a : Animation) (hlen : a.frames.length = 1) :
    a.transition.nextframe = 0 ∨ a.frame.get ≠ 0 := by
  by_cases hg : a.frame.get = 0
  · left
    unfold Animation.transition
    simp [hlen, hg, toInt16]
  · exact Or.inr hg

/-- In a reachable state with a single frame both slots of the frame quantity hold
index 0. -/
theorem Animation.static_frame (a : Animation) (hr : a.Reachable) :
    a.frames.length = 1 → a.frame = Interpolated.set 0 := by
  induction hr with
  | construct _ hr => intro _; exact (Animation.reset_frame _ _ hr).1
  | reset _ hr _ => intro _; exact (Animation.reset_frame _ _ hr).1
  | @update a a1 t e hp _ hu ih =>
    intro hlen
    obtain ⟨hv, _, _, _⟩ := Animation.reachable_inv _ hp
    obtain ⟨f, nf, a2, e2, hf, hn, hu2, hfr, _, _, hc⟩ := a.update_cases t hv
    rw [hu2] at hu
    simp only [Option.some.injEq, Prod.mk.injEq] at hu
    obtain ⟨rfl, _⟩ := hu
    rw [hfr] at hlen
    have h0 := ih hlen
    rcases hc with ⟨_, _, hfm, _, _⟩ | ⟨_, _, hfm, _, _⟩
    · rw [hfm, h0]; rfl
    · have hnx : a.transition.nextframe = 0 := by
        rcases a.transition_single hlen with h | h
        · exact h
        · exact absurd (by rw [h0]; rfl) h
      rw [hfm, hnx, h0]
      unfold Interpolated.next
      cases fdiv (u16sub t a.delay) t with
      | none => rfl
      | some thr =>
        dsimp only
        split
        · simp [Interpolated.blendIndex, Interpolated.set]
        · rfl

theorem blend_index_zero (q : Interpolated Int) : q.blendIndex 0 = q.committed := by
  unfold Interpolated.blendIndex
  rw [mul_zero, add_zero]
  exact round_intCast _

theorem Animation.exampleFade_reachable : Animation.exampleFade.Reachable := by
  refine @Animation.Reachable.construct Animation.exampleFade _ ?_ ?_
  · refine ⟨by decide, by decide, ?_, by decide⟩
    intro f hf
    simp only [Animation.exampleFade, List.mem_singleton] at hf
    subst hf
    decide
  · simp [Animation.reset, frameAt, Animation.exampleFade, Frame.start_opacity,
      Frame.start_scale, Frame.get_delay]

/-- C16, refuted as stated: the default-constructed sequencer and the single-frame
fade are reachable and not animated, yet `draw` at alpha 0 composes a modifier:
scale 0 and opacity 0 for the degenerate frame, scale 1 and opacity 0 for the fade. -/
theorem static_draw_modified :
    Animation.exampleDegenerate.Reachable ∧ Animation.exampleDegenerate.animated = false ∧
    Animation.exampleDegenerate.draw 0 = some (DrawCall.modified Frame.empty 0 0 0) ∧
    Animation.exampleFade.Reachable ∧ Animation.exampleFade.animated = false ∧
    Animation.exampleFade.draw 0
      = some (DrawCall.modified ⟨100, (0, 255), (100, 100)⟩ 1 1 0) := by
  refine ⟨Animation.exampleDegenerate_reachable, rfl, ?_,
    Animation.exampleFade_reachable, rfl, ?_⟩
  · have hsel : frameAt Animation.exampleDegenerate.frames
        (toInt16 (Animation.exampleDegenerate.frame.blendIndex 0)) = some Frame.empty := by
      rw [(blend_index_zero _)]; rfl
    have ho : Animation.exampleDegenerate.opacity.blend 0 / 255 = 0 := by
      simp [Interpolated.blend, Animation.exampleDegenerate, Interpolated.set]
    have hx : Animation.exampleDegenerate.xyscale.blend 0 / 100 = 0 := by
      simp [Interpolated.blend, Animation.exampleDegenerate, Interpolated.set]
    unfold Animation.draw
    simp only [hsel, ho, hx]
    rw [if_pos (Or.inl (by norm_num))]
  · have hsel : frameAt Animation.exampleFade.frames
        (toInt16 (Animation.exampleFade.frame.blendIndex 0))
          = some ⟨100, (0, 255), (100, 100)⟩ := by
      rw [(blend_index_zero _)]; rfl
    have ho : Animation.exampleFade.opacity.blend 0 / 255 = 0 := by
      simp [Interpolated.blend, Animation.exampleFade, Interpolated.set]
    have hx : Animation.exampleFade.xyscale.blend 0 / 100 = 1 := by
      simp [Interpolated.blend, Animation.exampleFade, Interpolated.set]
    unfold Animation.draw
    simp only [hsel, ho, hx]
    rw [if_pos (Or.inl (by norm_num))]

/-- C16, amended: in every reachable state of a sequencer that is not animated there is
one frame, and for every alpha `draw` renders that frame; it takes the unmodified path
exactly when the blended opacity is 255 and the blended scale is 100, which is always
so when the frame has opacity range `(255, 255)` and scale range `(100, 100)`; the
degenerate frame of the fallback is always drawn with the composed modifier of scale
0 and opacity 0. -/
theorem static_draw (a : Animation) (alpha : ℚ) (hr : a.Reachable)
    (hs : a.animated = false) :
    ∃ f0, a.frames = [f0] ∧
      (∃ call, a.draw alpha = some call ∧ call.frame = f0) ∧
      (a.draw alpha = some (DrawCall.plain f0) ↔
        a.opacity.blend alpha = 255 ∧ a.xyscale.blend alpha = 100) ∧
      (f0.opacities = (255, 255) → f0.scales = (100, 100) →
        a.draw alpha = some (DrawCall.plain f0)) ∧
      (f0 = Frame.empty → a.draw alpha = some (DrawCall.modified f0 0 0 0)) := by
  obtain ⟨hv, hw, han, _⟩ := a.reachable_inv hr
  have hpos : 0 < a.frames.length := List.length_pos.mpr hv.1
  have hlen : a.frames.length = 1 := by
    rw [hs] at han
    have : ¬ (1 < a.frames.length) := of_decide_eq_false han.symm
    omega
  obtain ⟨f0, hfs⟩ := List.length_eq_one.mp hlen
  have hfr := a.static_frame hr hlen
  have hsel : frameAt a.frames (toInt16 (a.frame.blendIndex alpha)) = some f0 := by
    rw [hfr, hfs]
    simp [Interpolated.blendIndex, Interpolated.set, toInt16, frameAt]
  have hiff : a.draw alpha = some (DrawCall.plain f0) ↔
      a.opacity.blend alpha = 255 ∧ a.xyscale.blend alpha = 100 := by
    unfold Animation.draw
    simp only [hsel]
    constructor
    · intro h
      split at h
      · simp at h
      · rename_i hc
        push_neg at hc
        constructor
        · have := hc.1
          field_simp at this
          linarith
        · have := hc.2
          field_simp at this
          linarith
    · rintro ⟨ho, hx⟩
      rw [ho, hx]
      norm_num
  obtain ⟨f, el, ec, hf, _, _, hp1, hc1, hp2, hc2⟩ := a.reachable_tracks hr
  have hf0 : f = f0 := by
    unfold Animation.get_frame at hf
    rw [hfr, hfs] at hf
    simp [Interpolated.get, Interpolated.set, frameAt] at hf
    exact hf.symm
  subst hf0
  refine ⟨f, hfs, ?_, hiff, ?_, ?_⟩
  · unfold Animation.draw
    simp only [hsel]
    split
    · exact ⟨_, rfl, rfl⟩
    · exact ⟨_, rfl, rfl⟩
  · intro hop hsc
    have ho0 : ∀ x, f.opcstep x = 0 := by
      intro x; unfold Frame.opcstep; rw [hop]; split <;> simp
    have hs0 : ∀ x, f.scalestep x = 0 := by
      intro x; unfold Frame.scalestep; rw [hsc]; split <;> simp
    rw [hiff]
    unfold Interpolated.blend
    rw [hp1, hc1, hp2, hc2, ho0, ho0, hs0, hs0]
    unfold Frame.start_opacity Frame.start_scale
    rw [hop, hsc]
    norm_num
  · intro he
    have ho0 : ∀ x, f.opcstep x = 0 := by
      intro x; rw [he]; simp [Frame.opcstep, Frame.empty]
    have hs0 : ∀ x, f.scalestep x = 0 := by
      intro x; rw [he]; simp [Frame.scalestep, Frame.empty]
    have hso : (f.start_opacity : ℚ) = 0 := by
      rw [he]; simp [Frame.start_opacity, Frame.empty]
    have hss : (f.start_scale : ℚ) = 0 := by
      rw [he]; simp [Frame.start_scale, Frame.empty]
    have hbo : a.opacity.blend alpha = 0 := by
      unfold Interpolated.blend
      rw [hp1, hc1, ho0, ho0, hso]
      ring
    have hbs : a.xyscale.blend alpha = 0 := by
      unfold Interpolated.blend
      rw [hp2, hc2, hs0, hs0, hss]
      ring
    unfold Animation.draw
    simp only [hsel, hbo, hbs, zero_div]
    rw [if_pos (Or.inl (by norm_num))]

theorem static_draw_witness :
    ∃ f0, Animation.exampleDegenerate.frames = [f0] ∧
      (∃ call, Animation.exampleDegenerate.draw (1 / 2) = some call ∧ call.frame = f0) ∧
      (Animation.exampleDegenerate.draw (1 / 2) = some (DrawCall.plain f0) ↔
        Animation.exampleDegenerate.opacity.blend (1 / 2) = 255 ∧
          Animation.exampleDegenerate.xyscale.blend (1 / 2) = 100) ∧
      (f0.opacities = (255, 255) → f0.scales = (100, 100) →
        Animation.exampleDegenerate.draw (1 / 2) = some (DrawCall.plain f0)) ∧
      (f0 = Frame.empty →
        Animation.exampleDegenerate.draw (1 / 2) = some (DrawCall.modified f0 0 0 0)) :=
  static_draw Animation.exampleDegenerate (1 / 2) Animation.exampleDegenerate_reachable rfl

/-! ## Constructors -/

/-- Children that contribute no frame id leave the id set as it is. -/
theorem Animation.frameids_fold_skip (orDefault : String → Int) :
    ∀ (children : List SourceChild) (ids : List Int),
      (∀ c ∈ children, ¬ (c.isBitmap = true ∧ 0 ≤ orDefault c.name)) →
      children.foldl
        (fun ids sub =>
          if sub.isBitmap then
            let fid := orDefault sub.name
            if fid ≥ 0 then insertId fid ids else ids
          else ids)
        ids = ids := by
  intro children
  induction children with
  | nil => intro ids _; rfl
  | cons c cs ih =>
    intro ids h
    have hc := h c (List.mem_cons_self _ _)
    have hcs : ∀ d ∈ cs, ¬ (d.isBitmap = true ∧ 0 ≤ orDefault d.name) :=
      fun d hd => h d (List.mem_cons_of_mem _ hd)
    rw [List.foldl_cons]
    by_cases hb : c.isBitmap = true
    · have hneg : ¬ (orDefault c.name ≥ 0) := fun h0 => hc ⟨hb, h0⟩
      simp only [hb, if_true, if_neg hneg]
      exact ih ids hcs
    · simp only [hb]
      exact ih ids hcs

theorem Animation.sourceFrames_ne_nil (orDefault : String → Int) (src : Source) :
    Animation.sourceFrames orDefault src ≠ [] := by
  unfold Animation.sourceFrames
  split
  · simp
  · dsimp only
    split
    · simp
    · rename_i h
      intro h2
      rw [h2] at h
      exact h rfl

theorem Animation.reset_total (a : Animation) (hne : a.frames ≠ []) :
    ∃ a1, a.reset = some a1 ∧ a1.frames = a.frames ∧ a1.zigzag = a.zigzag ∧
      a1.animated = a.animated := by
  have hpos : 0 < a.frames.length := List.length_pos.mpr hne
  obtain ⟨f0, hf0⟩ := frameAt_of_range a.frames 0 (le_refl 0) (by omega)
  unfold Animation.reset
  rw [hf0]
  exact ⟨_, rfl, rfl, rfl, rfl⟩

/-- C18: for every source record the constructor returns a sequencer whose frame list
is not empty and whose `animated` flag is true exactly when there is more than one
frame; when the record is not a bitmap and no child is a bitmap with a non-negative
id, and for the default constructor, the list is the single degenerate frame with
hold 0, opacity range `(0, 0)` and scale range `(0, 0)`. -/
theorem construction_total (orDefault : String → Int) (src : Source) :
    (∃ a, Animation.ofSource orDefault src = some a ∧ a.frames ≠ [] ∧
      (a.animated = true ↔ 1 < a.frames.length) ∧
      a.frames = Animation.sourceFrames orDefault src ∧ a.zigzag = src.zigzag ∧
      ((src.isBitmap = false ∧
          ∀ c ∈ src.children, ¬ (c.isBitmap = true ∧ 0 ≤ orDefault c.name)) →
        a.frames = [Frame.empty])) ∧
    (∃ d, Animation.ofNothing = some d ∧ d.frames = [Frame.empty] ∧
      d.animated = false) ∧
    Frame.empty.get_delay = 0 ∧ Frame.empty.opacities = (0, 0) ∧
      Frame.empty.scales = (0, 0) := by
  refine ⟨?_, ?_, rfl, rfl, rfl⟩
  · have hne := Animation.sourceFrames_ne_nil orDefault src
    obtain ⟨a1, hr, hfr, hz, han⟩ :=
      Animation.reset_total
        (Animation.unreset (Animation.sourceFrames orDefault src)
          (decide ((Animation.sourceFrames orDefault src).length > 1)) src.zigzag) hne
    refine ⟨a1, hr, ?_, ?_, hfr, hz, ?_⟩
    · rw [hfr]; exact hne
    · rw [han, hfr]
      simp [Animation.unreset]
    · rintro ⟨hb, hnone⟩
      rw [hfr]
      show Animation.sourceFrames orDefault src = [Frame.empty]
      unfold Animation.sourceFrames
      have hids : Animation.frameids orDefault src.children = [] :=
        Animation.frameids_fold_skip orDefault src.children [] hnone
      simp [hb, hids]
  · obtain ⟨a1, hr, hfr, _, han⟩ :=
      Animation.reset_total (Animation.unreset [Frame.empty] false false) (by decide)
    exact ⟨a1, hr, hfr, han⟩

theorem construction_total_witness :
    (∃ a, Animation.ofSource exampleOrDefault exampleSource = some a ∧ a.frames ≠ [] ∧
      (a.animated = true ↔ 1 < a.frames.length) ∧
      a.frames = Animation.sourceFrames exampleOrDefault exampleSource ∧
      a.zigzag = exampleSource.zigzag ∧
      ((exampleSource.isBitmap = false ∧
          ∀ c ∈ exampleSource.children,
            ¬ (c.isBitmap = true ∧ 0 ≤ exampleOrDefault c.name)) →
        a.frames = [Frame.empty])) ∧
    (∃ d, Animation.ofNothing = some d ∧ d.frames = [Frame.empty] ∧
      d.animated = false) ∧
    Frame.empty.get_delay = 0 ∧ Frame.empty.opacities = (0, 0) ∧
      Frame.empty.scales = (0, 0) :=
  construction_total exampleOrDefault exampleSource

/-! ## A frame shorter than the overshoot -/

/-- Under the structural invariant the index computation of `update` moves the index
by one step: one forward, one backward, or from the last frame to frame 0. -/
theorem Animation.transition_step (a : Animation) (hv : a.Valid) :
    a.transition.nextframe = a.frame.get + 1 ∨
      a.transition.nextframe = a.frame.get - 1 ∨
      (a.frame.get = (a.frames.length : Int) - 1 ∧ a.transition.nextframe = 0) := by
  obtain ⟨hne, hlen, h0, h1, hs⟩ := hv
  have hpos : 0 < a.frames.length := List.length_pos.mpr hne
  have hl : toInt16 ((a.frames.length : Int) - 1) = (a.frames.length : Int) - 1 :=
    toInt16_exact _ (by omega) (by omega)
  unfold Animation.transition
  simp only [hl]
  split_ifs with c1 c2 c3 c4
  · have : toInt16 (a.frame.get + -a.framestep) = a.frame.get + -a.framestep :=
      toInt16_exact _ (by omega) (by omega)
    simp only [this]
    omega
  · have : toInt16 (a.frame.get + -a.framestep) = a.frame.get + -a.framestep :=
      toInt16_exact _ (by omega) (by omega)
    simp only [this]
    omega
  · have : toInt16 (a.frame.get + a.framestep) = a.frame.get + a.framestep :=
      toInt16_exact _ (by omega) (by omega)
    simp only [this]
    omega
  · exact Or.inr (Or.inr ⟨c4, rfl⟩)
  · have : toInt16 (a.frame.get + 1) = a.frame.get + 1 :=
      toInt16_exact _ (by omega) (by omega)
    simp only [this]
    exact Or.inl trivial

/-- C21: a boundary-crossing `update` returns after one transition: the active index
is the next frame of the index computation, one step from the old index, and that
frame is the active one; when the overshoot exceeds the hold of the entered frame, the
remaining hold is that full hold. -/
theorem update_short_frame (a : Animation) (t : Nat) (hv : a.Valid) (ht : t < 65536)
    (hb : a.delay ≤ t) :
    ∃ a1 e nf, a.update t = some (a1, e) ∧ a1.get_frame = some nf ∧
      a1.frame.get = a.transition.nextframe ∧
      (a1.frame.get = a.frame.get + 1 ∨ a1.frame.get = a.frame.get - 1 ∨
        (a.frame.get = (a.frames.length : Int) - 1 ∧ a1.frame.get = 0)) ∧
      (nf.get_delay < t - a.delay → a1.delay = nf.get_delay) := by
  obtain ⟨f, nf, a1, e, hf, hnf, hu, hfr, _, _, hc⟩ := a.update_cases t hv
  rcases hc with ⟨hlt, _, _, _, _⟩ | ⟨_, _, hfm, hdl, _⟩
  · omega
  have hdelta : u16sub t a.delay = t - a.delay := u16sub_exact _ _ hb ht
  have hg : a1.frame.get = a.transition.nextframe := by
    rw [hfm]; exact Interpolated.get_next _ _ _
  refine ⟨a1, e, nf, hu, ?_, hg, ?_, ?_⟩
  · unfold Animation.get_frame; rw [hfr, hg]; exact hnf
  · rw [hg]; exact a.transition_step hv
  · intro hlt
    rw [hdl, hdelta, if_neg (by omega)]

theorem update_short_frame_witness :
    ∃ a1 e nf, Animation.exampleLoop.update 250 = some (a1, e) ∧
      a1.get_frame = some nf ∧
      a1.frame.get = Animation.exampleLoop.transition.nextframe ∧
      (a1.frame.get = Animation.exampleLoop.frame.get + 1 ∨
        a1.frame.get = Animation.exampleLoop.frame.get - 1 ∨
        (Animation.exampleLoop.frame.get = (Animation.exampleLoop.frames.length : Int) - 1 ∧
          a1.frame.get = 0)) ∧
      (nf.get_delay < 250 - Animation.exampleLoop.delay → a1.delay = nf.get_delay) :=
  update_short_frame Animation.exampleLoop 250 Animation.exampleLoop_valid (by decide)
    (by decide)

/-! ## Commit after a tick inside a hold -/

/-- C23, the defect: with three frames `getdelayuntil(3)` reads `frames[3]`, and with
one frame `getdelayuntil(1)` reads `frames[1]`; both are outside the frame list. -/
theorem getdelayuntil_reads_past_end :
    Animation.exampleHolds.frames.length = 3 ∧
    frameAt Animation.exampleHolds.frames 3 = none ∧
    Animation.exampleHolds.getdelayuntil 3 = none ∧
    Animation.exampleStatic.frames.length = 1 ∧
    frameAt Animation.exampleStatic.frames 1 = none ∧
    Animation.exampleStatic.getdelayuntil 1 = none := by
  refine ⟨rfl, rfl, ?_, rfl, rfl, ?_⟩
  · exact Animation.getdelayuntil_past Animation.exampleHolds 3 (by decide) (by decide)
  · exact Animation.getdelayuntil_past Animation.exampleStatic 1 (by decide) (by decide)

/-! ## Conservation of time -/

/-- From a state satisfying the invariant, a run of `uint16` timesteps that never
enters a frame shorter than the overshoot returns, and the elapsed time plus the time
already spent in the first frame equals the holds of the frames left plus the time
spent in the last frame. -/
theorem Animation.runLeft_conserves :
    ∀ (ts : List Nat) (a : Animation) (f : Frame), a.Inv → a.get_frame = some f →
      (∀ t ∈ ts, t < 65536) → a.NoSkip ts →
      ∃ a2 left f2, a.runLeft ts = some (a2, left) ∧ a2.get_frame = some f2 ∧
        a2.delay ≤ f2.get_delay ∧
        ts.sum + f.get_delay + a2.delay = left + f2.get_delay + a.delay := by
  intro ts
  induction ts with
  | nil =>
    intro a f hi hf _ _
    obtain ⟨_, _, _, g, hg, hgd⟩ := hi
    rw [hf] at hg
    simp only [Option.some.injEq] at hg
    subst hg
    exact ⟨a, 0, f, rfl, hf, hgd, by simp⟩
  | cons t ts ih =>
    intro a f hi hf hts hns
    have hi0 := hi
    obtain ⟨hv, hw, _, g, hg, hgd⟩ := hi
    rw [hf] at hg
    simp only [Option.some.injEq] at hg
    subst hg
    have ht : t < 65536 := hts t (List.mem_cons_self _ _)
    have hts1 : ∀ x ∈ ts, x < 65536 := fun x hx => hts x (List.mem_cons_of_mem _ hx)
    obtain ⟨f1, nf, a1, e, hf1, hnf, hu, hfr, _, _, hc⟩ := a.update_cases t hv
    have hi1 : a1.Inv := Animation.update_inv a a1 t e hi0 hu
    simp only [Animation.NoSkip, hu] at hns
    obtain ⟨hskip, hns1⟩ := hns
    rcases hc with ⟨hlt, _, hfm, hdl, _⟩ | ⟨hb, _, hfm, hdl, _⟩
    · have hgf : a1.get_frame = some f := by
        unfold Animation.get_frame; rw [hfr, hfm]; exact hf
      have hd1 : a1.delay = a.delay - t := by
        rw [hdl]; exact u16sub_exact _ _ (Nat.le_of_lt hlt) hw.1
      obtain ⟨a2, left, f2, hrun, hf2, hd2, heq⟩ := ih a1 f hi1 hgf hts1 hns1
      refine ⟨a2, 0 + left, f2, ?_, hf2, hd2, ?_⟩
      · simp only [Animation.runLeft, hf, hu, hrun, if_neg (Nat.not_le.mpr hlt)]
      · rw [List.sum_cons]; omega
    · have hg1 : a1.frame.get = a.transition.nextframe := by
        rw [hfm]; exact Interpolated.get_next _ _ _
      have hgf : a1.get_frame = some nf := by
        unfold Animation.get_frame; rw [hfr, hg1]; exact hnf
      obtain ⟨nf2, hnf2, hle⟩ := hskip hb
      rw [hgf] at hnf2
      simp only [Option.some.injEq] at hnf2
      subst hnf2
      have hnd : nf.get_delay < 65536 := (hw.2 nf (frameAt_mem _ _ _ hnf)).1
      have hdelta : u16sub t a.delay = t - a.delay := u16sub_exact _ _ hb ht
      have hd1 : a1.delay = nf.get_delay - (t - a.delay) := by
        rw [hdl, hdelta, if_pos hle]
        exact u16sub_exact _ _ hle hnd
      obtain ⟨a2, left, f2, hrun, hf2, hd2, heq⟩ := ih a1 nf hi1 hgf hts1 hns1
      refine ⟨a2, f.get_delay + left, f2, ?_, hf2, hd2, ?_⟩
      · simp only [Animation.runLeft, hf, hu, hrun, if_pos hb]
      · rw [List.sum_cons]; omega

/-- C24: from a state left by `reset`, every run of `uint16` timesteps in which no
overshoot exceeds the hold of the frame entered returns, and the sum of the timesteps
equals the sum of the holds of the frames left plus the hold of the active frame minus
the remaining hold. -/
theorem time_conservation (b a : Animation) (ts : List Nat) (hr : a.Reachable)
    (hb : b.reset = some a) (hts : ∀ t ∈ ts, t < 65536) (hns : a.NoSkip ts) :
    ∃ a2 left f2, a.runLeft ts = some (a2, left) ∧ a2.get_frame = some f2 ∧
      a2.delay ≤ f2.get_delay ∧ ts.sum = left + (f2.get_delay - a2.delay) := by
  have hi := a.reachable_inv hr
  obtain ⟨f0, hf0, hd0⟩ : ∃ f0, a.get_frame = some f0 ∧ a.delay = f0.get_delay := by
    unfold Animation.reset at hb
    split at hb
    · exact absurd hb (by simp)
    · rename_i f0 hf0
      simp only [Option.some.injEq] at hb
      subst hb
      exact ⟨f0, hf0, rfl⟩
  obtain ⟨a2, left, f2, hrun, hf2, hd2, heq⟩ :=
    Animation.runLeft_conserves ts a f0 hi hf0 hts hns
  exact ⟨a2, left, f2, hrun, hf2, hd2, by omega⟩

theorem Animation.exampleHolds_reachable : Animation.exampleHolds.Reachable := by
  refine @Animation.Reachable.construct Animation.exampleHolds _ ?_ ?_
  · refine ⟨by decide, by decide, ?_, by decide⟩
    intro f hf
    simp only [Animation.exampleHolds, Animation.fresh, List.mem_cons, List.mem_singleton,
      List.not_mem_nil, or_false] at hf
    rcases hf with rfl | rfl | rfl <;> decide
  · simp [Animation.reset, frameAt, Animation.exampleHolds, Animation.fresh,
      Animation.plainFrame, Frame.start_opacity, Frame.start_scale, Frame.get_delay]

theorem Animation.exampleHolds_reset :
    Animation.exampleHolds.reset = some Animation.exampleHolds := by
  simp [Animation.reset, frameAt, Animation.exampleHolds, Animation.fresh,
    Animation.plainFrame, Frame.start_opacity, Frame.start_scale, Frame.get_delay]

/-- Over holds 100, 200, 50 the run 130, 50, 150 enters frame 1 with overshoot 30 and
frame 2 with overshoot 30, each within the hold of the frame entered. -/
theorem Animation.exampleHolds_noSkip : Animation.exampleHolds.NoSkip [130, 50, 150] := by
  simp [Animation.NoSkip, Animation.update, Animation.get_frame, frameAt,
    Animation.exampleHolds, Animation.fresh, Animation.plainFrame,
    Animation.transition, Interpolated.get, Interpolated.set, Interpolated.next,
    Interpolated.add, Interpolated.last, Interpolated.normalize, Frame.get_delay,
    Frame.start_opacity, Frame.start_scale, fdiv, u16sub, toInt16]

theorem time_conservation_witness :
    ∃ a2 left f2, Animation.exampleHolds.runLeft [130, 50, 150] = some (a2, left) ∧
      a2.get_frame = some f2 ∧ a2.delay ≤ f2.get_delay ∧
      [130, 50, 150].sum = left + (f2.get_delay - a2.delay) :=
  time_conservation Animation.exampleHolds Animation.exampleHolds [130, 50, 150]
    Animation.exampleHolds_reachable Animation.exampleHolds_reset (by decide)
    Animation.exampleHolds_noSkip

/-! ## The zigzag cycle -/

theorem succ_mod_cases (k p : Nat) (hp : 2 ≤ p) :
    (k % p + 1 = p ∧ (k + 1) % p = 0) ∨ (k % p + 1 < p ∧ (k + 1) % p = k % p + 1) := by
  have hm : k % p < p := Nat.mod_lt _ (by omega)
  have h1 : 1 % p = 1 := Nat.mod_eq_of_lt (by omega)
  rw [Nat.add_mod, h1]
  rcases Nat.lt_or_ge (k % p + 1) p with h | h
  · exact Or.inr ⟨h, Nat.mod_eq_of_lt h⟩
  · have he : k % p + 1 = p := by omega
    exact Or.inl ⟨he, by rw [he]; exact Nat.mod_self p⟩

theorem Animation.triangle_cases (n k : Nat) :
    (k % (2 * (n - 1)) ≤ n - 1 ∧ Animation.triangle n k = k % (2 * (n - 1))) ∨
    (n - 1 < k % (2 * (n - 1)) ∧
      Animation.triangle n k = 2 * (n - 1) - k % (2 * (n - 1))) := by
  unfold Animation.triangle
  split
  · rename_i h; exact Or.inl ⟨h, rfl⟩
  · rename_i h; exact Or.inr ⟨by omega, rfl⟩

theorem Animation.zigzagDirection_cases (n k : Nat) :
    (k = 0 ∧ Animation.zigzagDirection n k = 1) ∨
    (k ≠ 0 ∧ 1 ≤ k % (2 * (n - 1)) ∧ k % (2 * (n - 1)) ≤ n - 1 ∧
      Animation.zigzagDirection n k = 1) ∨
    (k ≠ 0 ∧ (k % (2 * (n - 1)) = 0 ∨ n - 1 < k % (2 * (n - 1))) ∧
      Animation.zigzagDirection n k = -1) := by
  unfold Animation.zigzagDirection
  by_cases hk : k = 0
  · exact Or.inl ⟨hk, by rw [if_pos hk]⟩
  · rw [if_neg hk]
    by_cases hc : 1 ≤ k % (2 * (n - 1)) ∧ k % (2 * (n - 1)) ≤ n - 1
    · rw [if_pos hc]; exact Or.inr (Or.inl ⟨hk, hc.1, hc.2, rfl⟩)
    · rw [if_neg hc]; exact Or.inr (Or.inr ⟨hk, by omega, rfl⟩)

/-- The index computation of `update` for a zigzag sequencer with at least two
frames. -/
theorem Animation.transition_zigzag (a : Animation) (hv : a.Valid) (hz : a.zigzag = true)
    (hn : 2 ≤ a.frames.length) :
    (a.framestep = 1 ∧ a.frame.get = (a.frames.length : Int) - 1 →
      a.transition.nextframe = a.frame.get - 1 ∧ a.transition.framestep = -1 ∧
        a.transition.ended = false) ∧
    (a.framestep = -1 ∧ a.frame.get = 0 →
      a.transition.nextframe = 1 ∧ a.transition.framestep = 1 ∧
        a.transition.ended = true) ∧
    (¬ (a.framestep = 1 ∧ a.frame.get = (a.frames.length : Int) - 1) →
      ¬ (a.framestep = -1 ∧ a.frame.get = 0) →
      a.transition.nextframe = a.frame.get + a.framestep ∧
        a.transition.framestep = a.framestep ∧ a.transition.ended = false) := by
  obtain ⟨hne, hlen, h0, h1, hs⟩ := hv
  have hl : toInt16 ((a.frames.length : Int) - 1) = (a.frames.length : Int) - 1 :=
    toInt16_exact _ (by omega) (by omega)
  have hzz : a.zigzag = true ∧ (a.frames.length : Int) - 1 > 0 := ⟨hz, by omega⟩
  refine ⟨?_, ?_, ?_⟩
  · rintro ⟨hd, hi⟩
    have hw : toInt16 (a.frame.get + -a.framestep) = a.frame.get + -a.framestep :=
      toInt16_exact _ (by omega) (by omega)
    unfold Animation.transition
    simp only [hl]
    rw [if_pos hzz, if_pos ⟨hd, hi⟩]
    simp only [hw]
    refine ⟨by omega, by omega, trivial⟩
  · rintro ⟨hd, hi⟩
    have hw : toInt16 (a.frame.get + -a.framestep) = a.frame.get + -a.framestep :=
      toInt16_exact _ (by omega) (by omega)
    have c1 : ¬ (a.framestep = 1 ∧ a.frame.get = (a.frames.length : Int) - 1) := by
      rintro ⟨h, _⟩; omega
    unfold Animation.transition
    simp only [hl]
    rw [if_pos hzz, if_neg c1, if_pos ⟨hd, hi⟩]
    simp only [hw]
    refine ⟨by omega, by omega, trivial⟩
  · intro c1 c2
    have hw : toInt16 (a.frame.get + a.framestep) = a.frame.get + a.framestep :=
      toInt16_exact _ (by omega) (by omega)
    unfold Animation.transition
    simp only [hl]
    rw [if_pos hzz, if_neg c1, if_neg c2]
    simp only [hw]
    exact ⟨trivial, trivial, trivial⟩

/-- The arithmetic of one zigzag step: from the wave value `triangle n k` and direction
`zigzagDirection n k`, a turn at the last frame, a turn at frame 0 or a plain step
gives the wave value and direction at `k + 1`; the turn at frame 0 is the only step
with `k + 1 > 1` and `(k + 1) mod 2 (n - 1) = 1`. -/
theorem Animation.zigzag_phase_step (n k : Nat) (hn : 2 ≤ n) :
    Animation.triangle n k ≤ n - 1 ∧
    (Animation.zigzagDirection n k = 1 ∨ Animation.zigzagDirection n k = -1) ∧
    ((Animation.zigzagDirection n k = 1 ∧ Animation.triangle n k = n - 1 ∧
        Animation.triangle n (k + 1) = n - 2 ∧ Animation.zigzagDirection n (k + 1) = -1 ∧
        ¬ (1 < k + 1 ∧ (k + 1) % (2 * (n - 1)) = 1)) ∨
     (Animation.zigzagDirection n k = -1 ∧ Animation.triangle n k = 0 ∧
        Animation.triangle n (k + 1) = 1 ∧ Animation.zigzagDirection n (k + 1) = 1 ∧
        (1 < k + 1 ∧ (k + 1) % (2 * (n - 1)) = 1)) ∨
     (¬ (Animation.zigzagDirection n k = 1 ∧ Animation.triangle n k = n - 1) ∧
        ¬ (Animation.zigzagDirection n k = -1 ∧ Animation.triangle n k = 0) ∧
        (Animation.triangle n (k + 1) : Int)
          = (Animation.triangle n k : Int) + Animation.zigzagDirection n k ∧
        Animation.zigzagDirection n (k + 1) = Animation.zigzagDirection n k ∧
        ¬ (1 < k + 1 ∧ (k + 1) % (2 * (n - 1)) = 1))) := by
  have hp : 2 ≤ 2 * (n - 1) := by omega
  have hm : k % (2 * (n - 1)) < 2 * (n - 1) := Nat.mod_lt _ (by omega)
  have hsucc := succ_mod_cases k (2 * (n - 1)) hp
  have hT := Animation.triangle_cases n k
  have hD := Animation.zigzagDirection_cases n k
  have hT1 := Animation.triangle_cases n (k + 1)
  have hD1 := Animation.zigzagDirection_cases n (k + 1)
  have hk0 : k = 0 → k % (2 * (n - 1)) = 0 := by
    intro h; rw [h]; exact Nat.zero_mod _
  generalize Animation.triangle n k = tk at hT ⊢
  generalize Animation.zigzagDirection n k = dk at hD ⊢
  generalize Animation.triangle n (k + 1) = tk1 at hT1 ⊢
  generalize Animation.zigzagDirection n (k + 1) = dk1 at hD1 ⊢
  generalize k % (2 * (n - 1)) = m at hm hsucc hT hD hk0
  generalize (k + 1) % (2 * (n - 1)) = m1 at hsucc hT1 hD1 ⊢
  have hphase : (k = 0 ∧ m = 0 ∧ tk = 0 ∧ dk = 1) ∨
      (k ≠ 0 ∧ m = 0 ∧ tk = 0 ∧ dk = -1) ∨
      (1 ≤ m ∧ m ≤ n - 1 ∧ tk = m ∧ dk = 1) ∨
      (n - 1 < m ∧ tk = 2 * (n - 1) - m ∧ dk = -1) := by
    rcases hT with ⟨h1, h2⟩ | ⟨h1, h2⟩ <;>
      rcases hD with ⟨h3, h4⟩ | ⟨h3, h4, h5, h6⟩ | ⟨h3, h4, h5⟩ <;> omega
  have hnext : (m1 = 0 ∧ tk1 = 0 ∧ dk1 = -1) ∨
      (1 ≤ m1 ∧ m1 ≤ n - 1 ∧ tk1 = m1 ∧ dk1 = 1) ∨
      (n - 1 < m1 ∧ tk1 = 2 * (n - 1) - m1 ∧ dk1 = -1) := by
    rcases hT1 with ⟨h1, h2⟩ | ⟨h1, h2⟩ <;>
      rcases hD1 with ⟨h3, h4⟩ | ⟨h3, h4, h5, h6⟩ | ⟨h3, h4, h5⟩ <;> omega
  clear hT hD hT1 hD1 hk0
  rcases hsucc with ⟨s1, s2⟩ | ⟨s1, s2⟩
  · -- the wave is at its last phase and returns to frame 0
    have hq : n - 1 < m ∧ tk = 2 * (n - 1) - m ∧ dk = -1 ∨
        (n = 2 ∧ m = 1 ∧ tk = 1 ∧ dk = 1) := by omega
    have hq1 : m1 = 0 ∧ tk1 = 0 ∧ dk1 = -1 := by omega
    obtain ⟨_, q2, q3⟩ := hq1
    rcases hq with ⟨p1, p2, p3⟩ | ⟨p1, p2, p3, p4⟩
    · refine ⟨by omega, Or.inr p3, Or.inr (Or.inr ⟨?_, ?_, ?_, ?_, ?_⟩)⟩
      · omega
      · omega
      · omega
      · omega
      · omega
    · refine ⟨by omega, Or.inl p4, Or.inl ⟨p4, by omega, by omega, q3, by omega⟩⟩
  · rcases hphase with ⟨p1, p2, p3, p4⟩ | ⟨p1, p2, p3, p4⟩ | ⟨p1, p2, p3, p4⟩ | ⟨p1, p2, p3⟩
    · have hq1 : tk1 = 1 ∧ dk1 = 1 := by omega
      refine ⟨by omega, Or.inl p4, Or.inr (Or.inr ⟨?_, ?_, ?_, ?_, ?_⟩)⟩
      · omega
      · omega
      · omega
      · omega
      · omega
    · have hq1 : tk1 = 1 ∧ dk1 = 1 := by omega
      exact ⟨by omega, Or.inr p4, Or.inr (Or.inl ⟨p4, p3, hq1.1, hq1.2, by omega⟩)⟩
    · by_cases hl : m = n - 1
      · have hq1 : tk1 = n - 2 ∧ dk1 = -1 := by omega
        exact ⟨by omega, Or.inl p4, Or.inl ⟨p4, by omega, hq1.1, hq1.2, by omega⟩⟩
      · have hq1 : tk1 = m + 1 ∧ dk1 = 1 := by omega
        refine ⟨by omega, Or.inl p4, Or.inr (Or.inr ⟨?_, ?_, ?_, ?_, ?_⟩)⟩
        · omega
        · omega
        · omega
        · omega
        · omega
    · have hq1 : tk1 = 2 * (n - 1) - m1 ∧ dk1 = -1 := by omega
      refine ⟨by omega, Or.inr p3, Or.inr (Or.inr ⟨?_, ?_, ?_, ?_, ?_⟩)⟩
      · omega
      · omega
      · omega
      · omega
      · omega

/-- One boundary crossing of a zigzag run: from index `triangle n k` with direction
`zigzagDirection n k` the update moves to `triangle n (k + 1)` with direction
`zigzagDirection n (k + 1)` and reports the end exactly when `k + 1 > 1` and
`(k + 1) mod 2 (n - 1) = 1`. -/
theorem Animation.zigzag_step (a : Animation) (t k : Nat) (hz : a.zigzag = true)
    (hn : 2 ≤ a.frames.length) (hlen : a.frames.length ≤ 32768)
    (hg : a.frame.get = (Animation.triangle a.frames.length k : Int))
    (hs : a.framestep = Animation.zigzagDirection a.frames.length k)
    (hb : a.delay ≤ t) :
    ∃ a1, a.update t
        = some (a1, decide (1 < k + 1 ∧ (k + 1) % (2 * (a.frames.length - 1)) = 1)) ∧
      a1.frame.get = (Animation.triangle a.frames.length (k + 1) : Int) ∧
      a1.framestep = Animation.zigzagDirection a.frames.length (k + 1) ∧
      a1.frames = a.frames ∧ a1.zigzag = a.zigzag := by
  obtain ⟨hle, hdir, hstep⟩ := Animation.zigzag_phase_step a.frames.length k hn
  have hne : a.frames ≠ [] := by
    intro h; rw [h] at hn; simp at hn
  have hv : a.Valid := ⟨hne, hlen, by omega, by omega, by rw [hs]; exact hdir⟩
  obtain ⟨hz1, hz2, hz3⟩ := a.transition_zigzag hv hz hn
  obtain ⟨f, nf, a1, e, hf, hnf, hu, hfr, hzz, _, hc⟩ := a.update_cases t hv
  rcases hc with ⟨hlt, _⟩ | ⟨_, he, hfm, _, hst⟩
  · omega
  have hg1 : a1.frame.get = a.transition.nextframe := by
    rw [hfm]; exact Interpolated.get_next _ _ _
  rw [← hs] at hstep
  rcases hstep with ⟨d1, d2, d3, d4, d5⟩ | ⟨d1, d2, d3, d4, d5⟩ | ⟨d1, d2, d3, d4, d5⟩
  · have c1 : a.framestep = 1 ∧ a.frame.get = (a.frames.length : Int) - 1 :=
      ⟨d1, by omega⟩
    obtain ⟨hx, hy, hw⟩ := hz1 c1
    refine ⟨a1, ?_, ?_, ?_, hfr, hzz⟩
    · rw [hu, he, hw, decide_eq_false d5]
    · rw [hg1, hx]; omega
    · rw [hst, hy, d4]
  · have c2 : a.framestep = -1 ∧ a.frame.get = 0 := ⟨d1, by omega⟩
    obtain ⟨hx, hy, hw⟩ := hz2 c2
    refine ⟨a1, ?_, ?_, ?_, hfr, hzz⟩
    · rw [hu, he, hw, decide_eq_true d5]
    · rw [hg1, hx]; omega
    · rw [hst, hy, d4]
  · have c1 : ¬ (a.framestep = 1 ∧ a.frame.get = (a.frames.length : Int) - 1) := by
      rintro ⟨h1, h2⟩; exact d1 ⟨h1, by omega⟩
    have c2 : ¬ (a.framestep = -1 ∧ a.frame.get = 0) := by
      rintro ⟨h1, h2⟩; exact d2 ⟨h1, by omega⟩
    obtain ⟨hx, hy, hw⟩ := hz3 c1 c2
    refine ⟨a1, ?_, ?_, ?_, hfr, hzz⟩
    · rw [hu, he, hw, decide_eq_false d5]
    · rw [hg1, hx, hg, d3]
    · rw [hst, hy, d4]

/-- A zigzag run of boundary crossings from phase `k`: the indices and `ended` flags of
the following updates. -/
theorem Animation.zigzag_trace :
    ∀ (ts : List Nat) (a : Animation) (k : Nat), a.zigzag = true →
      2 ≤ a.frames.length → a.frames.length ≤ 32768 →
      a.frame.get = (Animation.triangle a.frames.length k : Int) →
      a.framestep = Animation.zigzagDirection a.frames.length k →
      a.AllBoundary ts →
      a.trace ts = some ((List.range ts.length).map fun j =>
        ((Animation.triangle a.frames.length (k + j + 1) : Int),
          decide (1 < k + j + 1 ∧ (k + j + 1) % (2 * (a.frames.length - 1)) = 1))) := by
  intro ts
  induction ts with
  | nil => intro a k _ _ _ _ _ _; rfl
  | cons t ts ih =>
    intro a k hz hn hlen hg hs hall
    obtain ⟨hb, hrest⟩ := hall
    obtain ⟨a1, hu, hg1, hs1, hfr, hzz⟩ := a.zigzag_step t k hz hn hlen hg hs hb
    simp only [hu] at hrest
    rw [← hfr] at hg1 hs1
    have hr := ih a1 (k + 1) (by rw [hzz]; exact hz) (by rw [hfr]; exact hn)
      (by rw [hfr]; exact hlen) hg1 hs1 hrest
    unfold Animation.trace
    simp only [hu, hr, hfr, List.length_cons, List.range_succ_eq_map, List.map_cons,
      List.map_map, Nat.add_zero, hg1, Option.some.injEq, List.cons.injEq, true_and]
    apply List.map_congr_left
    intro j _
    simp only [Function.comp, Nat.succ_eq_add_one]
    have e1 : k + 1 + j + 1 = k + (j + 1) + 1 := by omega
    rw [e1]

/-- C25: in a zigzag sequencer with `n >= 2` frames, from `reset` and under
boundary-crossing updates only, the active index after the `k`-th update is the
triangle wave of period `2 (n - 1)` at `k`, and the `k`-th update returns
`ended = true` exactly when `k > 1` and `k mod 2 (n - 1) = 1`. -/
theorem zigzag_cycle (b a : Animation) (ts : List Nat) (hz : b.zigzag = true)
    (hn : 2 ≤ b.frames.length) (hlen : b.frames.length ≤ 32768)
    (hb : b.reset = some a) (hall : a.AllBoundary ts) :
    a.frame.get = 0 ∧ a.frames = b.frames ∧
    a.trace ts = some ((List.range ts.length).map fun j =>
      ((Animation.triangle b.frames.length (j + 1) : Int),
        decide (1 < j + 1 ∧ (j + 1) % (2 * (b.frames.length - 1)) = 1))) := by
  have hfa : a.frame = Interpolated.set 0 ∧ a.frames = b.frames ∧ a.zigzag = b.zigzag ∧
      a.framestep = 1 := by
    unfold Animation.reset at hb
    split at hb
    · exact absurd hb (by simp)
    · simp only [Option.some.injEq] at hb
      subst hb
      exact ⟨rfl, rfl, rfl, rfl⟩
  obtain ⟨hf, hfr, hzz, hst⟩ := hfa
  have hg0 : a.frame.get = 0 := by rw [hf]; rfl
  have ht0 : Animation.triangle a.frames.length 0 = 0 := by
    unfold Animation.triangle; simp
  have hd0 : Animation.zigzagDirection a.frames.length 0 = 1 := by
    unfold Animation.zigzagDirection; simp
  have key := Animation.zigzag_trace ts a 0 (by rw [hzz]; exact hz)
    (by rw [hfr]; exact hn) (by rw [hfr]; exact hlen)
    (by rw [ht0]; exact hg0) (by rw [hd0]; exact hst) hall
  simp only [Nat.zero_add] at key
  rw [hfr] at key
  exact ⟨hg0, hfr, key⟩

theorem Animation.exampleZigzag_reset :
    Animation.exampleZigzag.reset = some Animation.exampleZigzag := by
  simp [Animation.reset, frameAt, Animation.exampleZigzag, Animation.fresh,
    Animation.plainFrame, Frame.start_opacity, Frame.start_scale, Frame.get_delay]

theorem Animation.exampleZigzag_allBoundary :
    Animation.exampleZigzag.AllBoundary [100, 100, 100, 100, 100] := by
  simp [Animation.AllBoundary, Animation.update, Animation.get_frame, frameAt,
    Animation.exampleZigzag, Animation.fresh, Animation.plainFrame,
    Animation.transition, Interpolated.get, Interpolated.set, Interpolated.next,
    Interpolated.add, Interpolated.last, Interpolated.normalize, Frame.get_delay,
    Frame.start_opacity, Frame.start_scale, fdiv, u16sub, toInt16]

/-- The wave and the `ended` condition of the claim for three frames, steps 1 to 5. -/
theorem Animation.triangle_three :
    (List.range 5).map (fun j =>
      (Animation.triangle 3 (j + 1), decide (1 < j + 1 ∧ (j + 1) % (2 * (3 - 1)) = 1)))
      = [(1, false), (2, false), (1, false), (0, false), (1, true)] := by
  decide

theorem zigzag_cycle_witness :
    Animation.exampleZigzag.frame.get = 0 ∧
    Animation.exampleZigzag.frames = Animation.exampleZigzag.frames ∧
    Animation.exampleZigzag.trace [100, 100, 100, 100, 100] =
      some ((List.range [100, 100, 100, 100, 100].length).map fun j =>
        ((Animation.triangle Animation.exampleZigzag.frames.length (j + 1) : Int),
          decide (1 < j + 1 ∧
            (j + 1) % (2 * (Animation.exampleZigzag.frames.length - 1)) = 1))) :=
  zigzag_cycle Animation.exampleZigzag Animation.exampleZigzag
    [100, 100, 100, 100, 100] rfl (by decide) (by decide)
    Animation.exampleZigzag_reset Animation.exampleZigzag_allBoundary

end jrc
